import Mathlib

/-!
Verification of the autotrigger VMF tool (src/autotrigger.py).

The development shallowly embeds the core of the program: the VMF tokenizer and
recursive block parser (`VMFParser.tokenize` / `VMFParser.parse_block`), the
serializer (`write_vmf_block`), the numeric coercion helper (`num`), and the
3-D geometry layer (`Vertex`, `Side`, `Solid`, `create_trigger_brush_simple`,
`create_trigger_entity`).

Modelling conventions:
* Text and tokens are `List Char`; the shared Python token iterator is modelled
  by passing the remaining token list through every call.
* Python dicts are insertion-ordered association lists; `data[key] = v` on a
  fresh key appends, on an existing key it updates the entry in place.
* Loops whose termination is not structural (the tokenizer scan and the
  recursive-descent parser) take an explicit fuel argument; with
  fuel ≥ number of remaining characters/tokens the fuel never runs out
  (proved below), so `tokenize`/`parseBlock` instantiate the fuel with the
  input length.
* Python floats are modelled as real numbers (geometry) or as an exact
  rational plus IEEE special values (`num`), as noted at each definition.
-/

namespace VMF

/-- Characters matched by the regex class `\s` used by the tokenizer
(ASCII scope; the source documents are ASCII VMF text). -/
def isSpace (c : Char) : Bool :=
  c == ' ' || c == '\t' || c == '\n' || c == '\r' || c == '\x0b' || c == '\x0c'

/-- Characters allowed in a bare (unquoted) token: the regex class
`[^\s{}"]` from `token_pattern`. -/
def bareChar (c : Char) : Bool :=
  !(isSpace c) && !(c == '{') && !(c == '}') && !(c == '"')

/-- Scan for the closing quote of a quoted token: returns the characters
before the first `"` and the characters after it, or `none` when the
input has no `"` (an unterminated quote, which the regex never matches). -/
def breakAtQuote : List Char → Option (List Char × List Char)
  | [] => none
  | c :: cs =>
    if c = '"' then some ([], cs)
    else (breakAtQuote cs).map (fun p => (c :: p.1, p.2))

/-- One left-to-right regex scan of `re.findall on token_pattern`:
at each position the quoted alternative is tried first, then a maximal bare
run, then a single brace; a position matching nothing (whitespace, or an
unterminated `"`) is skipped.  `fuel` bounds the scan; `fuel = content.length`
always suffices (`tokenizeAux_fuel_irrel` below). -/
def tokenizeAux : Nat → List Char → List (List Char)
  | 0, _ => []
  | _ + 1, [] => []
  | fuel + 1, c :: cs =>
    if c = '"' then
      match breakAtQuote cs with
      | some p => ('"' :: (p.1 ++ ['"'])) :: tokenizeAux fuel p.2
      | none => tokenizeAux fuel cs
    else if c = '{' then ['{'] :: tokenizeAux fuel cs
    else if c = '}' then ['}'] :: tokenizeAux fuel cs
    else if isSpace c then tokenizeAux fuel cs
    else (c :: cs.takeWhile bareChar) :: tokenizeAux fuel (cs.dropWhile bareChar)

/-- Python `str.strip()` on a token (ASCII whitespace both ends). -/
def pyStrip (cs : List Char) : List Char :=
  ((cs.dropWhile isSpace).reverse.dropWhile isSpace).reverse

/-- The comprehension `[token.strip() for token in tokens if token.strip()]`. -/
def stripTokens (ts : List (List Char)) : List (List Char) :=
  ts.filterMap (fun t => let s := pyStrip t; if s = [] then none else some s)

/-- `VMFParser.tokenize`. -/
def tokenize (content : List Char) : List (List Char) :=
  stripTokens (tokenizeAux content.length content)

/-- Python `token.strip('"')`: remove every leading and trailing `"`. -/
def stripQuoteMarks (cs : List Char) : List Char :=
  ((cs.dropWhile (fun c => c == '"')).reverse.dropWhile (fun c => c == '"')).reverse

/-- A parsed VMF value: a leaf string, a nested mapping (insertion-ordered
association list), or the list a repeated key folds into. -/
inductive JVal where
  | str : List Char → JVal
  | obj : List (List Char × JVal) → JVal
  | arr : List JVal → JVal

instance : Inhabited JVal := ⟨JVal.str []⟩

/-- A parsed mapping, in insertion order. -/
abbrev Dict := List (List Char × JVal)

/-- Python `key in data`. -/
def containsKey (d : Dict) (k : List Char) : Bool :=
  d.any (fun e => e.1 = k)

/-- The fold-on-repeat step of `parse_block`: an existing binding is promoted
to a list (if it is not one already) and the new value appended. -/
def promote (old new : JVal) : JVal :=
  match old with
  | .arr items => .arr (items ++ [new])
  | other => .arr [other, new]

/-- In-place update of the entry holding key `k` (Python dict update keeps
the position of the key). -/
def updEntry : Dict → List Char → JVal → Dict
  | [], _, _ => []
  | e :: rest, k, v => if e.1 = k then (e.1, promote e.2 v) :: rest else e :: updEntry rest k v

/-- The binding step of `parse_block`: `data[key] = value`, promoting to a
list when `key` is already bound at this level. -/
def addKV (d : Dict) (k : List Char) (v : JVal) : Dict :=
  if containsKey d k then updEntry d k v else d ++ [(k, v)]

/-- `VMFParser.parse_block` on the remaining token stream.  Returns the
mapping accumulated at this level and the tokens left after the closing
brace of the block (the remaining suffix of the shared iterator).  `fuel` bounds the
loop; `fuel = toks.length` always suffices (`parseBlockAux_fuel_irrel`).
Dispatch on a token follows the source exactly: `'}'` returns, `'{'` with no
pending key only logs and continues the loop, `'{'` with a pending key binds
the recursively parsed block, a token starting with `"` is stripped of its
quotes, and any other token is used verbatim. -/
def parseBlockAux : Nat → List (List Char) → Dict → Option (List Char) → Dict × List (List Char)
  | 0, toks, data, _ => (data, toks)
  | _ + 1, [], data, _ => (data, [])
  | fuel + 1, t :: rest, data, key =>
    if t = ['}'] then (data, rest)
    else if t = ['{'] then
      match key with
      | none => parseBlockAux fuel rest data none
      | some k =>
        let p := parseBlockAux fuel rest [] none
        parseBlockAux fuel p.2 (addKV data k (.obj p.1)) none
    else if t.head? = some '"' then
      match key with
      | none => parseBlockAux fuel rest data (some (stripQuoteMarks t))
      | some k => parseBlockAux fuel rest (addKV data k (.str (stripQuoteMarks t))) none
    else
      match key with
      | none => parseBlockAux fuel rest data (some t)
      | some k => parseBlockAux fuel rest (addKV data k (.str t)) none

/-- `parse_block(iter(tokens))` called on a fresh token stream. -/
def parseBlock (toks : List (List Char)) : Dict :=
  (parseBlockAux toks.length toks [] none).1

/-- The parsing core of `VMFParser.parse`: tokenize the text, then parse the
token stream from the top. -/
def parseVMF (text : List Char) : Dict :=
  parseBlock (tokenize text)

/-- The sequence of (key, value) binding events `parse_block` performs at one
nesting level, in order, with nested blocks parsed by `parseBlockAux` itself.
This is the reference against which the fold-on-repeat invariant (claim C2)
is stated: it mirrors `parseBlockAux` but records each binding instead of
folding it into the mapping. -/
def parseBindsAux : Nat → List (List Char) → Option (List Char) →
    List (List Char × JVal) × List (List Char)
  | 0, toks, _ => ([], toks)
  | _ + 1, [], _ => ([], [])
  | fuel + 1, t :: rest, key =>
    if t = ['}'] then ([], rest)
    else if t = ['{'] then
      match key with
      | none => parseBindsAux fuel rest none
      | some k =>
        let p := parseBlockAux fuel rest [] none
        let s := parseBindsAux fuel p.2 none
        ((k, .obj p.1) :: s.1, s.2)
    else if t.head? = some '"' then
      match key with
      | none => parseBindsAux fuel rest (some (stripQuoteMarks t))
      | some k =>
        let s := parseBindsAux fuel rest none
        ((k, .str (stripQuoteMarks t)) :: s.1, s.2)
    else
      match key with
      | none => parseBindsAux fuel rest (some t)
      | some k =>
        let s := parseBindsAux fuel rest none
        ((k, .str t) :: s.1, s.2)

/-- The binding events of a top-level `parse_block` call. -/
def parseBinds (toks : List (List Char)) : List (List Char × JVal) :=
  (parseBindsAux toks.length toks none).1

/-- Python `data[key]` lookup (first matching entry; keys are unique in any
mapping the parser builds). -/
def lookupD : Dict → List Char → Option JVal
  | [], _ => none
  | e :: rest, k => if e.1 = k then some e.2 else lookupD rest k

/-- The values bound to `k` among a list of binding events, in order. -/
def valuesOf (k : List Char) : List (List Char × JVal) → List JVal
  | [] => []
  | e :: rest => if e.1 = k then e.2 :: valuesOf k rest else valuesOf k rest

/-- How a sequence of bound values appears in the final mapping: absent,
the single value itself, or the folded list. -/
def listFold : List JVal → Option JVal
  | [] => none
  | [v] => some v
  | vs => some (.arr vs)

/-- Whether a value is a folded list. -/
def isArr : JVal → Prop
  | .arr _ => True
  | _ => False

instance : DecidablePred isArr := fun v => by
  cases v <;> simp [isArr] <;> infer_instance

/-- The list a value contributes when further values fold onto it
(`promote` appends to a list, wraps anything else). -/
def unwrapVal : JVal → List JVal
  | .arr items => items
  | v => [v]

/-- Folding further values onto an existing binding. -/
def extendVal (cur : JVal) (vs : List JVal) : JVal :=
  match vs with
  | [] => cur
  | _ => .arr (unwrapVal cur ++ vs)

/-! ### Serializer (`write_vmf_block`) -/

/-- The indent string: `'\t' * indent`. -/
def tabs (n : Nat) : List Char :=
  List.replicate n '\t'

/-- One scalar line of `write_vmf_block`: the f-string
`ind + tab + quote + key + quote + space + quote + value + quote + newline`. -/
def scalarLine (indent : Nat) (k v : List Char) : List Char :=
  tabs indent ++ '\t' :: '"' :: (k ++ '"' :: ' ' :: '"' :: (v ++ ['"', '\n']))

mutual
/-- `write_vmf_block(f, name, content, indent)`, with the text written to `f`
returned as a character list.  The block name is written bare (unquoted),
exactly as the source does. -/
def writeVMFBlock (name : List Char) (content : Dict) (indent : Nat) : List Char :=
  tabs indent ++ (name ++ '\n' :: (tabs indent ++ '{' :: '\n' ::
    (writeEntriesList content indent ++ (tabs indent ++ ['}', '\n']))))
/-- The body loop of `write_vmf_block` over `content.items()`: a dict value
recurses at `indent + 1`, a list value re-emits each element at the same key,
anything else becomes a quoted scalar line. -/
def writeEntriesList : Dict → Nat → List Char
  | [], _ => []
  | (k, v) :: rest, indent =>
    (match v with
     | .obj sub => writeVMFBlock k sub (indent + 1)
     | .arr items => writeListItems k items indent
     | .str s => scalarLine indent k s) ++ writeEntriesList rest indent
/-- The inner loop over a list value: dict items recurse as blocks, other
items become scalar lines.  (A list nested directly inside a list never
arises from the parser — `parseBlockAux` only ever appends strings or
mappings — so its rendering, which in Python would be the str() of a list,
is modelled as an empty scalar.) -/
def writeListItems : List Char → List JVal → Nat → List Char
  | _, [], _ => []
  | k, item :: rest, indent =>
    (match item with
     | .obj sub => writeVMFBlock k sub (indent + 1)
     | .str s => scalarLine indent k s
     | .arr _ => scalarLine indent k []) ++ writeListItems k rest indent
end

/-- Serialization of a whole parsed document: each top-level entry written
the way the body loop of `write_vmf_block` writes entries (the main routine
writes each top-level section with `write_vmf_block`; the extra tab of
indentation is insignificant whitespace to the tokenizer). -/
def writeTop (d : Dict) : List Char :=
  writeEntriesList d 0

/-! ### Token-level image of the serializer (proof device for claim C1) -/

/-- The quoted token a serialized string becomes. -/
def quoteTok (s : List Char) : List Char :=
  '"' :: (s ++ ['"'])

mutual
/-- The token stream `tokenize` produces from a serialized block. -/
def blockToks (name : List Char) (content : Dict) : List (List Char) :=
  name :: ['{'] :: (entriesToks content ++ [['}']])
/-- The token stream of a serialized entry list. -/
def entriesToks : Dict → List (List Char)
  | [] => []
  | (k, v) :: rest =>
    (match v with
     | .obj sub => blockToks k sub
     | .arr items => itemsToks k items
     | .str s => [quoteTok k, quoteTok s]) ++ entriesToks rest
/-- The token stream of a serialized list value. -/
def itemsToks : List Char → List JVal → List (List Char)
  | _, [] => []
  | k, item :: rest =>
    (match item with
     | .obj sub => blockToks k sub
     | .str s => [quoteTok k, quoteTok s]
     | .arr _ => [quoteTok k, quoteTok []]) ++ itemsToks k rest
end

/-- The flat sequence of bindings a serialized dictionary replays when
re-parsed: a list value re-binds its key once per element. -/
def bindingsOf (d : Dict) : List (List Char × JVal) :=
  d.flatMap (fun e =>
    match e.2 with
    | .arr items => items.map (fun it => (e.1, it))
    | v => [(e.1, v)])

/-! ### Well-formedness invariants of parser output -/

/-- A nonempty key all of whose characters are bare: such a key survives
being written unquoted as a block name. -/
def bareWord (k : List Char) : Prop :=
  k ≠ [] ∧ ∀ c ∈ k, bareChar c

/-- Whether serializing this value writes its key as a bare block name
(a nested mapping, or a list containing one). -/
def needsBareKey : JVal → Prop
  | .obj _ => True
  | .arr items => ∃ it ∈ items, ∃ sub, it = JVal.obj sub
  | .str _ => False

mutual
/-- Structural invariants every value built by `parseBlockAux` satisfies:
leaf strings contain no quote character, folded lists have at least two
elements and never nest directly, and mappings are well-formed. -/
inductive WfV : JVal → Prop where
  | str : ∀ {s : List Char}, (∀ c ∈ s, c ≠ '"') → WfV (.str s)
  | obj : ∀ {es : Dict}, WfD es → WfV (.obj es)
  | arr : ∀ {items : List JVal}, 2 ≤ items.length → WfL items → WfV (.arr items)
/-- Elements of a folded list: each is well-formed and not itself a list. -/
inductive WfL : List JVal → Prop where
  | nil : WfL []
  | cons : ∀ {v : JVal} {rest : List JVal},
      ¬ isArr v → WfV v → WfL rest → WfL (v :: rest)
/-- A well-formed mapping: keys contain no quote character, no key repeats,
and every value is well-formed. -/
inductive WfD : Dict → Prop where
  | nil : WfD []
  | cons : ∀ {k : List Char} {v : JVal} {rest : Dict},
      (∀ c ∈ k, c ≠ '"') → containsKey rest k = false → WfV v → WfD rest →
      WfD ((k, v) :: rest)
end

mutual
/-- The extra condition the round trip needs (claim C1): every key that the
serializer writes as a bare block name is a nonempty bare word. -/
inductive BareV : JVal → Prop where
  | str : ∀ {s : List Char}, BareV (.str s)
  | obj : ∀ {es : Dict}, BareD es → BareV (.obj es)
  | arr : ∀ {items : List JVal}, BareL items → BareV (.arr items)
/-- Bare-block-key condition on list elements. -/
inductive BareL : List JVal → Prop where
  | nil : BareL []
  | cons : ∀ {v : JVal} {rest : List JVal}, BareV v → BareL rest → BareL (v :: rest)
/-- Bare-block-key condition on a mapping. -/
inductive BareD : Dict → Prop where
  | nil : BareD []
  | cons : ∀ {k : List Char} {v : JVal} {rest : Dict},
      (needsBareKey v → bareWord k) → BareV v → BareD rest → BareD ((k, v) :: rest)
end

/-- Shapes a token produced by `tokenize` can have: a brace, a quoted token
with quote-free contents, or a nonempty run of bare characters. -/
def goodTok (t : List Char) : Prop :=
  t = ['{'] ∨ t = ['}'] ∨
    (∃ c, t = '"' :: (c ++ ['"']) ∧ ∀ ch ∈ c, ch ≠ '"') ∨
    (t ≠ [] ∧ ∀ ch ∈ t, bareChar ch)

/-! ### Numeric coercion (`num`)

Python doubles are modelled as an exact rational together with the IEEE
special values.  Rounding of in-range values to 53-bit precision is not
modelled (no claim depends on it); the overflow boundary, which decides
finiteness and `OverflowError`, is modelled exactly. -/

/-- A Python float: a finite value (kept exact as a rational), one of the
two infinities, or nan. -/
inductive PyFloat where
  | finite : ℚ → PyFloat
  | inf : PyFloat
  | neginf : PyFloat
  | nan : PyFloat
deriving DecidableEq

/-- Magnitudes at or above this bound round to an infinity when converted
to an IEEE double: 2^1024 − 2^970 is the midpoint between the largest
finite double (2^1024 − 2^971) and 2^1024, and the midpoint itself rounds
up under round-half-even. -/
def floatOverflowBound : ℚ := 2 ^ 1024 - 2 ^ 970

/-- Python `float(n)` on an int: raises `OverflowError` (here `none`) when
the integer rounds beyond the largest double. -/
def floatOfInt (n : ℤ) : Option PyFloat :=
  if floatOverflowBound ≤ |(n : ℚ)| then none else some (.finite n)

/-- Result of `float(s)` once the decimal value of the literal is known:
out-of-range magnitudes become infinities (never an error). -/
def classifyFinite (q : ℚ) : PyFloat :=
  if floatOverflowBound ≤ q then .inf
  else if q ≤ -floatOverflowBound then .neginf
  else .finite q

/-- Tail of a digit group: digits, with single underscores allowed between
digits (the CPython numeric-literal rule, ASCII scope). -/
def digitsTailOK : List Char → Bool
  | [] => true
  | '_' :: rest =>
    match rest with
    | c :: rest2 => c.isDigit && digitsTailOK rest2
    | [] => false
  | c :: rest => c.isDigit && digitsTailOK rest

/-- A valid digit group: nonempty, starts and ends with a digit, single
underscores between digits. -/
def digitsOK : List Char → Bool
  | [] => false
  | c :: rest => c.isDigit && digitsTailOK rest

/-- Numeric value of a digit group, skipping underscores. -/
def digitsVal (cs : List Char) : ℕ :=
  cs.foldl (fun acc c => if c = '_' then acc else acc * 10 + (c.toNat - 48)) 0

/-- Strip one optional leading sign, returning the sign and the rest. -/
def pySign : List Char → ℤ × List Char
  | '+' :: rest => (1, rest)
  | '-' :: rest => (-1, rest)
  | cs => (1, cs)

/-- Python `int(s)`: strip whitespace, optional sign, then a digit group. -/
def pyIntOfChars (cs : List Char) : Option ℤ :=
  let t := pyStrip cs
  let p := pySign t
  if digitsOK p.2 then some (p.1 * digitsVal p.2) else none

/-- Split a literal at the first `e`/`E` (exponent marker). -/
def splitAtExpChar : List Char → List Char × Option (List Char)
  | [] => ([], none)
  | c :: rest =>
    if c = 'e' ∨ c = 'E' then ([], some rest)
    else
      let r := splitAtExpChar rest
      (c :: r.1, r.2)

/-- Split a mantissa at the first `.`. -/
def splitAtDot : List Char → List Char × Option (List Char)
  | [] => ([], none)
  | c :: rest =>
    if c = '.' then ([], some rest)
    else
      let r := splitAtDot rest
      (c :: r.1, r.2)

/-- Python `float(s)`: strip, optional sign, then `inf`/`infinity`/`nan`
(case-insensitive) or a decimal literal `D[.D][eSD] | D.[eSD] | .D[eSD]`
with underscore-grouped digit groups.  The decimal value is computed
exactly and classified against the double overflow boundary. -/
def pyFloatOfChars (cs : List Char) : Option PyFloat :=
  let t := pyStrip cs
  let p := pySign t
  let low := p.2.map Char.toLower
  if low = ['i', 'n', 'f'] ∨ low = ['i', 'n', 'f', 'i', 'n', 'i', 't', 'y'] then
    some (if p.1 = 1 then .inf else .neginf)
  else if low = ['n', 'a', 'n'] then some .nan
  else
    let me := splitAtExpChar p.2
    let expVal : Option ℤ :=
      match me.2 with
      | none => some 0
      | some ecs =>
        let ps := pySign ecs
        if digitsOK ps.2 then some (ps.1 * digitsVal ps.2) else none
    match expVal with
    | none => none
    | some e =>
      let md := splitAtDot me.1
      let fpart := md.2.getD []
      let ok :=
        match md.2 with
        | none => digitsOK md.1
        | some fpart =>
          (!md.1.isEmpty || !fpart.isEmpty) &&
            (md.1.isEmpty || digitsOK md.1) && (fpart.isEmpty || digitsOK fpart)
      if ok then
        let fdigits := (fpart.filter (fun c => !(c == '_'))).length
        let q : ℚ := ((digitsVal md.1 : ℚ) + (digitsVal fpart : ℚ) / 10 ^ fdigits) * 10 ^ e
        some (classifyFinite (p.1 * q))
      else none

/-- The argument types `num` is called with in the source. -/
inductive PyVal where
  | s : List Char → PyVal
  | i : ℤ → PyVal
  | f : PyFloat → PyVal

/-- `num(s)` from the source.  `.error ()` models an exception escaping to
the caller; it can only arise on the `isinstance` fast path, which sits
outside the try block, so `float(huge int)` raising `OverflowError` is not
caught there.  Inside the try block every `ValueError`/`OverflowError` is
caught and turned into the 0.0 default (with a logged warning). -/
def num : PyVal → Except Unit PyFloat
  | .f v => .ok v
  | .i n =>
    match floatOfInt n with
    | some v => .ok v
    | none => .error ()
  | .s cs =>
    if cs = [] then .ok (.finite 0)
    else
      let t := pyStrip cs
      if !(t.contains '.') && !((t.map Char.toLower).contains 'e') then
        match pyIntOfChars t with
        | some n =>
          match floatOfInt n with
          | some v => .ok v
          | none => .ok (.finite 0)
        | none => .ok (.finite 0)
      else
        match pyFloatOfChars t with
        | some v => .ok v
        | none => .ok (.finite 0)

/-- Finiteness of a modelled double. -/
def PyFloat.isFinite : PyFloat → Prop
  | .finite _ => True
  | _ => False

/-! ### Geometry

The vector/geometry layer works on Python floats; it is modelled over the
real numbers.  `math.sqrt` is `Real.sqrt`; the defensive guards in the
source (`mag < 1e-10`, the try/except around `compute_normal`) are kept,
though in the real-number model no arithmetic step can raise. -/

/-- The 3-component vector type of the source (class `Vertex`).  The
constructor coercion through `num` is outside the geometry claims; fields
are taken as already-numeric. -/
structure Vertex where
  x : ℝ
  y : ℝ
  z : ℝ

/-- `__add__`. -/
def Vertex.add (a b : Vertex) : Vertex :=
  ⟨a.x + b.x, a.y + b.y, a.z + b.z⟩

/-- `__sub__`. -/
def Vertex.sub (a b : Vertex) : Vertex :=
  ⟨a.x - b.x, a.y - b.y, a.z - b.z⟩

instance : Add Vertex := ⟨Vertex.add⟩

instance : Sub Vertex := ⟨Vertex.sub⟩

instance : Zero Vertex := ⟨⟨0, 0, 0⟩⟩

instance : AddCommMonoid Vertex where
  add_assoc a b c := by
    show Vertex.add (Vertex.add a b) c = Vertex.add a (Vertex.add b c)
    simp only [Vertex.add, Vertex.mk.injEq]
    exact ⟨add_assoc _ _ _, add_assoc _ _ _, add_assoc _ _ _⟩
  zero_add a := by
    show Vertex.add ⟨0, 0, 0⟩ a = a
    cases a
    simp [Vertex.add]
  add_zero a := by
    show Vertex.add a ⟨0, 0, 0⟩ = a
    cases a
    simp [Vertex.add]
  add_comm a b := by
    show Vertex.add a b = Vertex.add b a
    simp only [Vertex.add, Vertex.mk.injEq]
    exact ⟨add_comm _ _, add_comm _ _, add_comm _ _⟩
  nsmul := nsmulRec

/-- `cross`. -/
def Vertex.cross (a b : Vertex) : Vertex :=
  ⟨a.y * b.z - a.z * b.y, a.z * b.x - a.x * b.z, a.x * b.y - a.y * b.x⟩

/-- `dot`. -/
def Vertex.dot (a b : Vertex) : ℝ :=
  a.x * b.x + a.y * b.y + a.z * b.z

/-- `scale` (the warning on tiny scalars only logs). -/
def Vertex.scale (v : Vertex) (s : ℝ) : Vertex :=
  ⟨v.x * s, v.y * s, v.z * s⟩

/-- `magnitude`: `math.sqrt(x**2 + y**2 + z**2)`. -/
noncomputable def Vertex.magnitude (v : Vertex) : ℝ :=
  Real.sqrt (v.x ^ 2 + v.y ^ 2 + v.z ^ 2)

/-- `normalize`: the canonical up-vector on near-zero magnitude (the
division-by-zero guard), otherwise the components divided by the
magnitude. -/
noncomputable def Vertex.normalize (v : Vertex) : Vertex :=
  if v.magnitude < 1e-10 then ⟨0, 0, 1⟩
  else ⟨v.x / v.magnitude, v.y / v.magnitude, v.z / v.magnitude⟩

/-- `__eq__`: per-axis absolute tolerance of 0.001. -/
def vertexEq (a b : Vertex) : Prop :=
  |a.x - b.x| < 0.001 ∧ |a.y - b.y| < 0.001 ∧ |a.z - b.z| < 0.001

/-- Round-half-to-even to an integer (the rounding Python `round` uses). -/
noncomputable def roundHalfEven (x : ℝ) : ℤ :=
  if Int.fract x < 1 / 2 then ⌊x⌋
  else if 1 / 2 < Int.fract x then ⌊x⌋ + 1
  else if Even ⌊x⌋ then ⌊x⌋ else ⌊x⌋ + 1

/-- Python `round(x, 3)`. -/
noncomputable def pyRound3 (x : ℝ) : ℝ :=
  (roundHalfEven (x * 1000) : ℝ) / 1000

/-- `__hash__`: the hash is `hash((round(x,3), round(y,3), round(z,3)))`;
the rounded triple stands in for the hash value (equal triples hash equal,
and the tuple hash is injective on distinct triples for all practical
purposes, which is what the deduplication relies on). -/
noncomputable def vertexHash (v : Vertex) : ℝ × ℝ × ℝ :=
  (pyRound3 v.x, pyRound3 v.y, pyRound3 v.z)

/-- A face (class `Side`): the up-to-3 plane points parsed from the plane
string and the optional explicit vertex loop.  The pass-through
texture/alignment attributes do not enter any geometric computation and are
omitted here. -/
structure Side where
  plane : List Vertex
  vertices_plus : List Vertex

/-- A solid owning its faces.  The back-reference `side.parent_solid` is
modelled by passing the parent (an `Option Solid`, matching the Python
truthiness test on `self.parent_solid`) to the functions that read it. -/
structure Solid where
  sides : List Side

/-- `get_vertices`: the explicit loop when nonempty, else the (first 3)
plane points when there are at least 3, else nothing. -/
def Side.getVertices (s : Side) : List Vertex :=
  match s.vertices_plus with
  | [] => if 3 ≤ s.plane.length then s.plane.take 3 else []
  | v :: rest => v :: rest

/-- `get_face_center`: mean of `get_vertices`, `None` when empty. -/
noncomputable def Side.getFaceCenter (s : Side) : Option Vertex :=
  match s.getVertices with
  | [] => none
  | _ :: _ =>
    some ((s.getVertices.foldl (· + ·) (⟨0, 0, 0⟩ : Vertex)).scale (1 / (s.getVertices.length : ℝ)))

/-- `Solid.get_approximate_center`: mean of all vertices of all faces. -/
noncomputable def Solid.getApproximateCenter (sol : Solid) : Option Vertex :=
  match (sol.sides.map Side.getVertices).flatten with
  | [] => none
  | _ :: _ =>
    some (((sol.sides.map Side.getVertices).flatten.foldl (· + ·) (⟨0, 0, 0⟩ : Vertex)).scale
      (1 / (((sol.sides.map Side.getVertices).flatten.length : ℝ))))

/-- The point list `compute_normal` works on: `vertices_plus` when it has at
least 3 points, else the plane points. -/
def Side.pointsToUse (s : Side) : List Vertex :=
  if 3 ≤ s.vertices_plus.length then s.vertices_plus else s.plane

/-- One term of the Newell accumulation in `compute_normal`. -/
def newellTerm (v1 v2 : Vertex) : Vertex :=
  ⟨(v1.y - v2.y) * (v1.z + v2.z), (v1.z - v2.z) * (v1.x + v2.x), (v1.x - v2.x) * (v1.y + v2.y)⟩

/-- The Newell accumulation loop `for i in range(n)` over the cyclic vertex
loop. -/
def newellSum (pts : List Vertex) : Vertex :=
  (List.range pts.length).foldl
    (fun acc i =>
      acc + newellTerm (pts.getD i ⟨0, 0, 0⟩) (pts.getD ((i + 1) % pts.length) ⟨0, 0, 0⟩))
    ⟨0, 0, 0⟩

/-- The un-normalized normal of the point loop: the triangle cross product
`(p2 - p1) × (p3 - p1)` for exactly 3 points, the Newell accumulation
otherwise. -/
def rawNormalVec (pts : List Vertex) : Vertex :=
  if pts.length = 3 then
    ((pts.getD 1 ⟨0, 0, 0⟩) - (pts.getD 0 ⟨0, 0, 0⟩)).cross
      ((pts.getD 2 ⟨0, 0, 0⟩) - (pts.getD 0 ⟨0, 0, 0⟩))
  else newellSum pts

/-- The normal before orientation correction: both branches of
`compute_normal` normalize the accumulated vector. -/
noncomputable def preNormal (pts : List Vertex) : Vertex :=
  (rawNormalVec pts).normalize

/-- A face with its vertex winding reversed (both point sources reversed). -/
def reverseSide (s : Side) : Side :=
  ⟨s.plane.reverse, s.vertices_plus.reverse⟩

/-- The orientation-correction step of `compute_normal`: when the face has a
parent solid and both centers exist, flip the normal if its dot product with
the solid-center-to-face-center vector is below −0.1. -/
noncomputable def orientCorrect (s : Side) (parent : Option Solid) (normal : Vertex) : Vertex :=
  match parent with
  | none => normal
  | some sol =>
    match s.getFaceCenter, sol.getApproximateCenter with
    | some fc, some sc => if normal.dot (fc - sc) < -0.1 then normal.scale (-1) else normal
    | _, _ => normal

/-- `compute_normal`.  In the real-number model no arithmetic step can raise,
so the except branch returning `None` is unreachable; the only `None` is the
fewer-than-3-points early return. -/
noncomputable def Side.computeNormal (s : Side) (parent : Option Solid) : Option Vertex :=
  let pts := s.pointsToUse
  if pts.length < 3 then none
  else some (orientCorrect s parent (preNormal pts))

/-- `get_surface_type`. -/
noncomputable def Side.getSurfaceType (s : Side) (parent : Option Solid) : String :=
  match s.computeNormal parent with
  | none => "unknown"
  | some n =>
    if |n.z| < 0.01 then "wall"
    else if 0.985 ≤ |n.z| then if 0 < n.z then "floor" else "ceiling"
    else if 0.7 ≤ |n.z| then if 0 < n.z then "steep_slope" else "steep_ceiling_slope"
    else if 0.3 ≤ |n.z| then if 0 < n.z then "ramp" else "ceiling_ramp"
    else if 0 < n.z then "gentle_slope" else "gentle_ceiling_slope"

/-- `create_trigger_brush_simple`. -/
noncomputable def createTriggerBrushSimple (base_vertices : List Vertex) (normal : Vertex)
    (height : ℝ) : Option (List (List Vertex)) :=
  if base_vertices.length < 3 then none
  else
    let top_vertices := base_vertices.map (fun v => v + normal.scale height)
    let side_faces := (List.range base_vertices.length).map (fun i =>
      [base_vertices.getD i ⟨0, 0, 0⟩,
       base_vertices.getD ((i + 1) % base_vertices.length) ⟨0, 0, 0⟩,
       top_vertices.getD ((i + 1) % base_vertices.length) ⟨0, 0, 0⟩,
       top_vertices.getD i ⟨0, 0, 0⟩])
    some (base_vertices.reverse :: top_vertices :: side_faces)

/-- The side dictionary `create_trigger_entity` builds for one brush face.
Ids are kept numeric and the vertex data geometric; the fixed 6-decimal
string rendering of `plane` and `vertices_plus` is a serialization detail
outside these claims. -/
structure SideData where
  id : ℤ
  plane : List Vertex
  vertices_plus : List Vertex
  material : String
  uaxis : String
  vaxis : String
  rotation : String
  lightmapscale : String
  smoothing_groups : String

/-- The fixed editor metadata block on synthesized solids/entities. -/
structure EditorData where
  color : String
  visgroupshown : String
  visgroupautoshown : String

/-- The constant editor block `{'color': '220 30 220', ...}`. -/
def triggerEditor : EditorData :=
  ⟨"220 30 220", "1", "1"⟩

/-- The synthesized solid node. -/
structure TriggerSolid where
  id : ℤ
  side : List SideData
  editor : EditorData

/-- The synthesized trigger_multiple entity node. -/
structure TriggerEntity where
  id : ℤ
  classname : String
  spawnflags : String
  startDisabled : String
  wait : String
  solid : TriggerSolid
  editor : EditorData

/-- One `side_data` dictionary. -/
def mkSideData (face_id : ℤ) (face_vertices : List Vertex) : SideData :=
  { id := face_id
    plane := face_vertices.take 3
    vertices_plus := face_vertices
    material := "TOOLS/TOOLSTRIGGER"
    uaxis := "[1 0 0 0] 0.25"
    vaxis := "[0 -1 0 0] 0.25"
    rotation := "0"
    lightmapscale := "16"
    smoothing_groups := "0" }

/-- `create_trigger_entity`: `(None, face_id_start)` when the face has fewer
than 3 vertices, no normal, or no brush; otherwise the assembled entity and
the face-id counter advanced once per emitted side (faces with fewer than 3
vertices are skipped without consuming an id). -/
noncomputable def createTriggerEntity (solid_id face_id_start : ℤ) (base_side : Side)
    (parent : Option Solid) (height : ℝ) : Option TriggerEntity × ℤ :=
  let base_vertices := base_side.getVertices
  if base_vertices.length < 3 then (none, face_id_start)
  else
    match base_side.computeNormal parent with
    | none => (none, face_id_start)
    | some normal =>
      match createTriggerBrushSimple base_vertices normal height with
      | none => (none, face_id_start)
      | some brush_faces =>
        match brush_faces with
        | [] => (none, face_id_start)
        | _ :: _ =>
          let r := brush_faces.foldl
            (fun (acc : List SideData × ℤ) (fv : List Vertex) =>
              if fv.length < 3 then acc else (acc.1 ++ [mkSideData acc.2 fv], acc.2 + 1))
            ([], face_id_start)
          (some
            { id := solid_id + 1
              classname := "trigger_multiple"
              spawnflags := "1"
              startDisabled := "0"
              wait := "0"
              solid := { id := solid_id, side := r.1, editor := triggerEditor }
              editor := triggerEditor }, r.2)

/-- Whether the first character (if any) can continue a bare token. -/
def headBare : List Char → Bool
  | [] => false
  | c :: _ => bareChar c

/-! ### Concrete inputs used by counterexamples and witnesses -/

/-- The text `"a" "1" { "b" "2" } "c" "3"`: an unkeyed block between two
top-level pairs. -/
def c5Text : List Char :=
  ['"', 'a', '"', ' ', '"', '1', '"', ' ', '{', ' ', '"', 'b', '"', ' ', '"', '2', '"',
    ' ', '}', ' ', '"', 'c', '"', ' ', '"', '3', '"']

/-- The text `"a b"` newline `{` newline `}` newline: a well-formed document
whose single block key contains a space. -/
def c1Text : List Char :=
  ['"', 'a', ' ', 'b', '"', '\n', '{', '\n', '}', '\n']

/-- A well-formed document with a bare block key and a repeated inner key. -/
def c1WitnessText : List Char :=
  ['v', 'e', 'r', 's', 'i', 'o', 'n', 'i', 'n', 'f', 'o', '\n', '{', '\n',
    '"', 'k', '"', ' ', '"', '1', '"', '\n', '"', 'k', '"', ' ', '"', '2', '"', '\n',
    '}', '\n']

/-- A horizontal triangle whose plane points wind counterclockwise seen
from above. -/
def triFloor : Side :=
  ⟨[⟨0, 0, 0⟩, ⟨1, 0, 0⟩, ⟨0, 1, 0⟩], []⟩

/-- The same triangle with the opposite winding. -/
def triCeiling : Side :=
  ⟨[⟨0, 1, 0⟩, ⟨1, 0, 0⟩, ⟨0, 0, 0⟩], []⟩

/-- A vertical triangle in the x = 0 plane. -/
def triWall : Side :=
  ⟨[⟨0, 0, 0⟩, ⟨0, 1, 0⟩, ⟨0, 0, 1⟩], []⟩

/-- A sloped triangle whose unit normal is (√3/2, 0, 1/2). -/
noncomputable def triRamp : Side :=
  ⟨[⟨0, 0, 0⟩, ⟨0, 1, 0⟩, ⟨-1, 0, Real.sqrt 3⟩], []⟩

/-- A sloped triangle whose unit normal is (3/5, 0, 4/5). -/
def triSteep : Side :=
  ⟨[⟨0, 0, 0⟩, ⟨0, 1, 0⟩, ⟨-4, 0, 3⟩], []⟩

/-- A face given by an explicit vertex loop, belonging to a solid that
consists of this face alone, so the face center coincides with the solid
center. -/
def c7Side : Side :=
  ⟨[], [⟨0, 0, 0⟩, ⟨1, 0, 0⟩, ⟨0, 1, 0⟩]⟩

/-- A face whose solid has a second face strictly below it, so the solid
center sits well below the face center. -/
def c7WitSide : Side :=
  ⟨[], [⟨0, 0, 0⟩, ⟨4, 0, 0⟩, ⟨0, 4, 0⟩]⟩

/-- The lower face of the witness solid. -/
def c7WitSideLow : Side :=
  ⟨[], [⟨0, 0, -6⟩, ⟨4, 0, -6⟩, ⟨0, 4, -6⟩]⟩

/-- The witness solid for the amended claim C7. -/
def c7WitSolid : Solid :=
  ⟨[c7WitSide, c7WitSideLow]⟩

/-- A face with a 1-element explicit vertex loop but a full 3-point plane. -/
def c10Side : Side :=
  ⟨[⟨0, 0, 0⟩, ⟨1, 0, 0⟩, ⟨0, 1, 0⟩], [⟨0, 0, 0⟩]⟩

/-- Two vertices 0.0002 apart on the x axis that straddle the 0.0005
rounding boundary of the third decimal. -/
def c6a : Vertex := ⟨0.0004, 0, 0⟩

/-- See `c6a`. -/
def c6b : Vertex := ⟨0.0006, 0, 0⟩

/-! ## Theorems

### Parser infrastructure: the fuel never runs out -/

theorem parseBlockAux_rest_length (fuel : Nat) :
    ∀ toks data key, ((parseBlockAux fuel toks data key).2).length ≤ toks.length := by
  induction fuel with
  | zero => intro toks data key; simp [parseBlockAux]
  | succ f ih =>
    intro toks data key
    match toks with
    | [] => simp [parseBlockAux]
    | t :: rest =>
      simp only [parseBlockAux, List.length_cons]
      by_cases h1 : t = ['}']
      · simp [h1]
      · rw [if_neg h1]
        by_cases h2 : t = ['{']
        · rw [if_pos h2]
          cases key with
          | none => exact le_trans (ih rest data none) (Nat.le_succ _)
          | some k =>
            refine le_trans (le_trans (ih _ _ _) ?_) (Nat.le_succ _)
            exact ih rest [] none
        · rw [if_neg h2]
          by_cases h3 : t.head? = some '"'
          · rw [if_pos h3]
            cases key with
            | none => exact le_trans (ih rest data _) (Nat.le_succ _)
            | some k => exact le_trans (ih rest _ none) (Nat.le_succ _)
          · rw [if_neg h3]
            cases key with
            | none => exact le_trans (ih rest data _) (Nat.le_succ _)
            | some k => exact le_trans (ih rest _ none) (Nat.le_succ _)

theorem parseBlockAux_fuel_irrel (f : Nat) :
    ∀ g toks data key, toks.length ≤ f → toks.length ≤ g →
      parseBlockAux f toks data key = parseBlockAux g toks data key := by
  induction f with
  | zero =>
    intro g toks data key hf _
    have : toks = [] := List.length_eq_zero.mp (Nat.le_zero.mp hf)
    subst this
    cases g <;> simp [parseBlockAux]
  | succ f ih =>
    intro g toks data key hf hg
    match toks with
    | [] => cases g <;> simp [parseBlockAux]
    | t :: rest =>
      match g, hg with
      | g + 1, hg =>
        have hf' : rest.length ≤ f := by simpa using hf
        have hg' : rest.length ≤ g := by simpa using hg
        simp only [parseBlockAux]
        by_cases h1 : t = ['}']
        · simp [h1]
        · rw [if_neg h1, if_neg h1]
          by_cases h2 : t = ['{']
          · rw [if_pos h2, if_pos h2]
            cases key with
            | none => exact ih g rest data none hf' hg'
            | some k =>
              have hp : parseBlockAux f rest [] none = parseBlockAux g rest [] none :=
                ih g rest [] none hf' hg'
              rw [← hp]
              have hlen : ((parseBlockAux f rest [] none).2).length ≤ rest.length :=
                parseBlockAux_rest_length f rest [] none
              exact ih g _ _ none (le_trans hlen hf') (le_trans hlen hg')
          · rw [if_neg h2, if_neg h2]
            by_cases h3 : t.head? = some '"'
            · rw [if_pos h3, if_pos h3]
              cases key with
              | none => exact ih g rest data _ hf' hg'
              | some k => exact ih g rest _ none hf' hg'
            · rw [if_neg h3, if_neg h3]
              cases key with
              | none => exact ih g rest data _ hf' hg'
              | some k => exact ih g rest _ none hf' hg'

/-! Canonical unfolding laws for `parseBlockAux` run with exactly enough
fuel (the form `parseBlock` uses). -/

theorem parseBR_nil (data : Dict) (key : Option (List Char)) :
    parseBlockAux ([] : List (List Char)).length [] data key = (data, []) := rfl

theorem parseBR_rb (r : List (List Char)) (data : Dict) (key : Option (List Char)) :
    parseBlockAux (['}'] :: r).length (['}'] :: r) data key = (data, r) := by
  simp [parseBlockAux]

theorem parseBR_lb_none (r : List (List Char)) (data : Dict) :
    parseBlockAux (['{'] :: r).length (['{'] :: r) data none =
      parseBlockAux r.length r data none := by
  simp [parseBlockAux]

theorem parseBR_lb_some (r : List (List Char)) (data : Dict) (k : List Char) :
    parseBlockAux (['{'] :: r).length (['{'] :: r) data (some k) =
      parseBlockAux (parseBlockAux r.length r [] none).2.length
        (parseBlockAux r.length r [] none).2
        (addKV data k (.obj (parseBlockAux r.length r [] none).1)) none := by
  simp only [parseBlockAux, List.length_cons]
  norm_num
  exact parseBlockAux_fuel_irrel r.length _ _ _ none
    (parseBlockAux_rest_length r.length r [] none) le_rfl

theorem parseBR_quoted_none (t : List Char) (r : List (List Char)) (data : Dict)
    (h1 : t ≠ ['}']) (h2 : t ≠ ['{']) (h3 : t.head? = some '"') :
    parseBlockAux (t :: r).length (t :: r) data none =
      parseBlockAux r.length r data (some (stripQuoteMarks t)) := by
  simp only [parseBlockAux, List.length_cons]
  rw [if_neg h1, if_neg h2, if_pos h3]

theorem parseBR_quoted_some (t : List Char) (r : List (List Char)) (data : Dict) (k : List Char)
    (h1 : t ≠ ['}']) (h2 : t ≠ ['{']) (h3 : t.head? = some '"') :
    parseBlockAux (t :: r).length (t :: r) data (some k) =
      parseBlockAux r.length r (addKV data k (.str (stripQuoteMarks t))) none := by
  simp only [parseBlockAux, List.length_cons]
  rw [if_neg h1, if_neg h2, if_pos h3]

theorem parseBR_bare_none (t : List Char) (r : List (List Char)) (data : Dict)
    (h1 : t ≠ ['}']) (h2 : t ≠ ['{']) (h3 : ¬ t.head? = some '"') :
    parseBlockAux (t :: r).length (t :: r) data none =
      parseBlockAux r.length r data (some t) := by
  simp only [parseBlockAux, List.length_cons]
  rw [if_neg h1, if_neg h2, if_neg h3]

theorem parseBR_bare_some (t : List Char) (r : List (List Char)) (data : Dict) (k : List Char)
    (h1 : t ≠ ['}']) (h2 : t ≠ ['{']) (h3 : ¬ t.head? = some '"') :
    parseBlockAux (t :: r).length (t :: r) data (some k) =
      parseBlockAux r.length r (addKV data k (.str t)) none := by
  simp only [parseBlockAux, List.length_cons]
  rw [if_neg h1, if_neg h2, if_neg h3]

/-! ### Claim C2: the fold-on-repeat invariant

`parseBlockAux` is the fold of `addKV` over the binding events that
`parseBindsAux` records, and `addKV`-folds realize exactly the
once-unwrapped / repeated-in-order-listed discipline. -/

theorem parseBlockAux_eq_foldl_binds (fuel : Nat) :
    ∀ toks key data,
      parseBlockAux fuel toks data key =
        ((parseBindsAux fuel toks key).1.foldl (fun d e => addKV d e.1 e.2) data,
          (parseBindsAux fuel toks key).2) := by
  induction fuel with
  | zero => intro toks key data; simp [parseBlockAux, parseBindsAux]
  | succ f ih =>
    intro toks key data
    match toks with
    | [] => simp [parseBlockAux, parseBindsAux]
    | t :: rest =>
      simp only [parseBlockAux, parseBindsAux]
      by_cases h1 : t = ['}']
      · simp [h1]
      · rw [if_neg h1, if_neg h1]
        by_cases h2 : t = ['{']
        · rw [if_pos h2, if_pos h2]
          cases key with
          | none => exact ih rest none data
          | some k =>
            dsimp only
            rw [ih _ none (addKV data k (.obj (parseBlockAux f rest [] none).1))]
            rfl
        · rw [if_neg h2, if_neg h2]
          by_cases h3 : t.head? = some '"'
          · rw [if_pos h3, if_pos h3]
            cases key with
            | none => exact ih rest _ data
            | some k =>
              dsimp only
              rw [ih rest none (addKV data k (.str (stripQuoteMarks t)))]
              rfl
          · rw [if_neg h3, if_neg h3]
            cases key with
            | none => exact ih rest _ data
            | some k =>
              dsimp only
              rw [ih rest none (addKV data k (.str t))]
              rfl

theorem parseBindsAux_values_not_arr (fuel : Nat) :
    ∀ toks key e, e ∈ (parseBindsAux fuel toks key).1 → ¬ isArr e.2 := by
  induction fuel with
  | zero => intro toks key e he; simp [parseBindsAux] at he
  | succ f ih =>
    intro toks key e he
    match toks with
    | [] => simp [parseBindsAux] at he
    | t :: rest =>
      simp only [parseBindsAux] at he
      by_cases h1 : t = ['}']
      · simp [h1] at he
      · rw [if_neg h1] at he
        by_cases h2 : t = ['{']
        · rw [if_pos h2] at he
          cases key with
          | none => exact ih rest none e he
          | some k =>
            simp only [List.mem_cons] at he
            rcases he with he | he
            · subst he; simp [isArr]
            · exact ih _ none e he
        · rw [if_neg h2] at he
          by_cases h3 : t.head? = some '"'
          · rw [if_pos h3] at he
            cases key with
            | none => exact ih rest _ e he
            | some k =>
              simp only [List.mem_cons] at he
              rcases he with he | he
              · subst he; simp [isArr]
              · exact ih rest none e he
          · rw [if_neg h3] at he
            cases key with
            | none => exact ih rest _ e he
            | some k =>
              simp only [List.mem_cons] at he
              rcases he with he | he
              · subst he; simp [isArr]
              · exact ih rest none e he

theorem containsKey_eq_isSome_lookupD (d : Dict) (k : List Char) :
    containsKey d k = (lookupD d k).isSome := by
  induction d with
  | nil => simp [containsKey, lookupD]
  | cons e rest ih =>
    simp only [containsKey, List.any_cons, lookupD]
    by_cases h : e.1 = k
    · simp [h]
    · simp only [h, decide_False, Bool.false_or, if_neg h]
      simpa [containsKey] using ih

theorem lookupD_append (d1 d2 : Dict) (k : List Char) :
    lookupD (d1 ++ d2) k =
      match lookupD d1 k with
      | some v => some v
      | none => lookupD d2 k := by
  induction d1 with
  | nil => simp [lookupD]
  | cons e rest ih =>
    simp only [List.cons_append, lookupD]
    by_cases h : e.1 = k
    · simp [h]
    · simp [h, ih]

theorem lookupD_updEntry (d : Dict) (k : List Char) (v : JVal) (k' : List Char) :
    lookupD (updEntry d k v) k' =
      if k' = k then
        match lookupD d k with
        | none => none
        | some cur => some (promote cur v)
      else lookupD d k' := by
  induction d with
  | nil => simp [updEntry, lookupD]
  | cons e rest ih =>
    by_cases h : e.1 = k
    · simp only [updEntry, if_pos h, lookupD]
      by_cases he : e.1 = k'
      · have hk : k' = k := he.symm.trans h
        simp only [if_pos he, if_pos hk, if_pos h]
      · have hk : ¬ k' = k := fun hh => he (h.trans hh.symm)
        simp only [if_neg he, if_neg hk]
    · simp only [updEntry, if_neg h, lookupD]
      by_cases he : e.1 = k'
      · have hk : ¬ k' = k := fun hh => h (he.trans hh)
        simp only [if_pos he, if_neg hk]
      · simp only [if_neg he, if_neg h]
        exact ih

theorem lookupD_addKV (d : Dict) (k : List Char) (v : JVal) (k' : List Char) :
    lookupD (addKV d k v) k' =
      if k' = k then
        match lookupD d k with
        | none => some v
        | some cur => some (promote cur v)
      else lookupD d k' := by
  unfold addKV
  rw [containsKey_eq_isSome_lookupD]
  by_cases hc : (lookupD d k).isSome
  · rw [if_pos hc, lookupD_updEntry]
    rcases Option.isSome_iff_exists.mp hc with ⟨cur, hcur⟩
    rw [hcur]
  · rw [if_neg hc, lookupD_append]
    have hnone : lookupD d k = none := Option.not_isSome_iff_eq_none.mp hc
    by_cases hk : k' = k
    · subst hk
      rw [hnone, if_pos rfl]
      simp [lookupD]
    · rw [if_neg hk]
      cases hl : lookupD d k' with
      | some w => rfl
      | none =>
        simp only [lookupD]
        rw [if_neg (fun hh : k = k' => hk hh.symm)]

theorem lookupD_foldl_addKV (bs : List (List Char × JVal)) :
    ∀ d k, (∀ e ∈ bs, ¬ isArr e.2) →
      lookupD (bs.foldl (fun d e => addKV d e.1 e.2) d) k =
        match lookupD d k with
        | none => listFold (valuesOf k bs)
        | some cur => some (extendVal cur (valuesOf k bs)) := by
  induction bs with
  | nil =>
    intro d k _
    simp only [List.foldl_nil, valuesOf, listFold, extendVal]
    cases lookupD d k <;> rfl
  | cons e bs ih =>
    intro d k hb
    have hbe : ¬ isArr e.2 := hb e (List.mem_cons_self e bs)
    have hbs : ∀ e' ∈ bs, ¬ isArr e'.2 := fun e' he' => hb e' (List.mem_cons_of_mem e he')
    simp only [List.foldl_cons]
    rw [ih (addKV d e.1 e.2) k hbs, lookupD_addKV]
    by_cases hk : k = e.1
    · subst hk
      simp only [if_pos rfl, valuesOf]
      cases hcur : lookupD d e.1 with
      | none =>
        cases hvs : valuesOf e.1 bs with
        | nil => simp [listFold, extendVal]
        | cons v vs =>
          have hu : unwrapVal e.2 = [e.2] := by
            cases e2 : e.2
            · rfl
            · rfl
            · simp [e2, isArr] at hbe
          cases vs <;> simp [listFold, extendVal, hu]
      | some cur =>
        cases hvs : valuesOf e.1 bs with
        | nil => cases cur <;> simp [listFold, extendVal, promote, unwrapVal]
        | cons v vs =>
          have hpr : unwrapVal (promote cur e.2) = unwrapVal cur ++ [e.2] := by
            cases cur <;> simp [promote, unwrapVal]
          cases vs <;> simp [listFold, extendVal, hpr]
    · rw [if_neg hk]
      simp only [valuesOf, if_neg (fun h : e.1 = k => hk h.symm)]

/-! ### Tokenizer: shape invariant and composition laws (for claim C1) -/

theorem breakAtQuote_some (cs : List Char) :
    ∀ p, breakAtQuote cs = some p → (∀ ch ∈ p.1, ch ≠ '"') ∧ cs = p.1 ++ '"' :: p.2 := by
  induction cs with
  | nil => intro p hp; simp [breakAtQuote] at hp
  | cons c cs ih =>
    intro p hp
    by_cases h : c = '"'
    · subst h
      have hp' : p = ([], cs) := by simpa [breakAtQuote] using hp.symm
      subst hp'
      exact ⟨by simp, by simp⟩
    · simp only [breakAtQuote, if_neg h] at hp
      cases hb : breakAtQuote cs with
      | none => rw [hb] at hp; simp at hp
      | some q =>
        rw [hb] at hp
        simp only [Option.map_some', Option.some.injEq] at hp
        subst hp
        rcases ih q hb with ⟨hq1, hq2⟩
        refine ⟨?_, by simp [hq2]⟩
        intro ch hch
        rcases List.mem_cons.mp hch with hch | hch
        · subst hch; exact h
        · exact hq1 ch hch

theorem breakAtQuote_of_no_quote (content : List Char) (s : List Char)
    (h : ∀ ch ∈ content, ch ≠ '"') :
    breakAtQuote (content ++ '"' :: s) = some (content, s) := by
  induction content with
  | nil => simp [breakAtQuote]
  | cons c cs ih =>
    have hc : c ≠ '"' := h c (List.mem_cons_self c cs)
    simp only [List.cons_append, breakAtQuote, if_neg hc, List.append_eq]
    rw [ih (fun ch hch => h ch (List.mem_cons_of_mem c hch))]
    rfl

theorem dropWhile_length_le (l : List Char) (p : Char → Bool) :
    (l.dropWhile p).length ≤ l.length := by
  induction l with
  | nil => simp
  | cons c rest ih =>
    rw [List.dropWhile_cons]
    by_cases h : p c
    · simp only [h, if_true]
      exact le_trans ih (Nat.le_succ _)
    · simp [h]

theorem tokenizeAux_fuel_irrel (f : Nat) :
    ∀ g cs, cs.length ≤ f → cs.length ≤ g → tokenizeAux f cs = tokenizeAux g cs := by
  induction f with
  | zero =>
    intro g cs hf _
    have : cs = [] := List.length_eq_zero.mp (Nat.le_zero.mp hf)
    subst this
    cases g <;> simp [tokenizeAux]
  | succ f ih =>
    intro g cs hf hg
    match cs with
    | [] => cases g <;> simp [tokenizeAux]
    | c :: cs =>
      match g, hg with
      | g + 1, hg =>
        have hf' : cs.length ≤ f := by simpa using hf
        have hg' : cs.length ≤ g := by simpa using hg
        simp only [tokenizeAux]
        by_cases h1 : c = '"'
        · rw [if_pos h1, if_pos h1]
          cases hb : breakAtQuote cs with
          | none => dsimp only; exact ih g cs hf' hg'
          | some p =>
            dsimp only
            have hlen : cs.length = p.1.length + 1 + p.2.length := by
              rw [(breakAtQuote_some cs p hb).2]; simp; omega
            have hp2 : p.2.length ≤ cs.length := by omega
            rw [ih g p.2 (le_trans hp2 hf') (le_trans hp2 hg')]
        · rw [if_neg h1, if_neg h1]
          by_cases h2 : c = '{'
          · rw [if_pos h2, if_pos h2, ih g cs hf' hg']
          · rw [if_neg h2, if_neg h2]
            by_cases h3 : c = '}'
            · rw [if_pos h3, if_pos h3, ih g cs hf' hg']
            · rw [if_neg h3, if_neg h3]
              by_cases h4 : isSpace c
              · rw [if_pos h4, if_pos h4, ih g cs hf' hg']
              · rw [if_neg h4, if_neg h4]
                have hd : (cs.dropWhile bareChar).length ≤ cs.length :=
                  dropWhile_length_le cs bareChar
                rw [ih g (cs.dropWhile bareChar) (le_trans hd hf') (le_trans hd hg')]

theorem bareChar_props (c : Char) (h : bareChar c = true) :
    c ≠ '"' ∧ c ≠ '{' ∧ c ≠ '}' ∧ isSpace c = false := by
  refine ⟨fun hh => ?_, fun hh => ?_, fun hh => ?_, ?_⟩
  · subst hh; exact absurd h (by decide)
  · subst hh; exact absurd h (by decide)
  · subst hh; exact absurd h (by decide)
  · by_contra hsp
    have hsp' : isSpace c = true := by simpa using hsp
    unfold bareChar at h
    rw [hsp'] at h
    simp at h

theorem bareChar_of_props (c : Char) (h1 : ¬ c = '"') (h2 : ¬ c = '{') (h3 : ¬ c = '}')
    (h4 : ¬ isSpace c = true) : bareChar c = true := by
  have h4' : isSpace c = false := by simpa using h4
  have b1 : (c == '"') = false := beq_eq_false_iff_ne.mpr h1
  have b2 : (c == '{') = false := beq_eq_false_iff_ne.mpr h2
  have b3 : (c == '}') = false := beq_eq_false_iff_ne.mpr h3
  simp [bareChar, h4', b1, b2, b3]

theorem tokenizeAux_goodTok (fuel : Nat) :
    ∀ cs t, t ∈ tokenizeAux fuel cs → goodTok t := by
  induction fuel with
  | zero => intro cs t ht; simp [tokenizeAux] at ht
  | succ f ih =>
    intro cs t ht
    match cs with
    | [] => simp [tokenizeAux] at ht
    | c :: cs =>
      simp only [tokenizeAux] at ht
      by_cases h1 : c = '"'
      · rw [if_pos h1] at ht
        cases hb : breakAtQuote cs with
        | none => rw [hb] at ht; exact ih cs t ht
        | some p =>
          rw [hb] at ht
          rcases List.mem_cons.mp ht with ht | ht
          · subst ht
            exact Or.inr (Or.inr (Or.inl ⟨p.1, rfl, (breakAtQuote_some cs p hb).1⟩))
          · exact ih p.2 t ht
      · rw [if_neg h1] at ht
        by_cases h2 : c = '{'
        · rw [if_pos h2] at ht
          rcases List.mem_cons.mp ht with ht | ht
          · subst ht; exact Or.inl rfl
          · exact ih cs t ht
        · rw [if_neg h2] at ht
          by_cases h3 : c = '}'
          · rw [if_pos h3] at ht
            rcases List.mem_cons.mp ht with ht | ht
            · subst ht; exact Or.inr (Or.inl rfl)
            · exact ih cs t ht
          · rw [if_neg h3] at ht
            by_cases h4 : isSpace c
            · rw [if_pos h4] at ht; exact ih cs t ht
            · rw [if_neg h4] at ht
              rcases List.mem_cons.mp ht with ht | ht
              · subst ht
                refine Or.inr (Or.inr (Or.inr ⟨by simp, ?_⟩))
                intro ch hch
                rcases List.mem_cons.mp hch with hch | hch
                · subst hch
                  exact bareChar_of_props ch h1 h2 h3 h4
                · exact List.mem_takeWhile_imp hch
              · exact ih (cs.dropWhile bareChar) t ht

theorem dropWhile_isSpace_eq_self (l : List Char) (h : ∀ c ∈ l, isSpace c = false) :
    l.dropWhile isSpace = l := by
  cases l with
  | nil => rfl
  | cons c rest => simp [List.dropWhile_cons, h c (List.mem_cons_self c rest)]

theorem pyStrip_of_no_space (cs : List Char) (h : ∀ c ∈ cs, isSpace c = false) :
    pyStrip cs = cs := by
  unfold pyStrip
  rw [dropWhile_isSpace_eq_self cs h,
    dropWhile_isSpace_eq_self cs.reverse (fun c hc => h c (List.mem_reverse.mp hc)),
    List.reverse_reverse]

theorem pyStrip_head_last (c d : Char) (mid : List Char)
    (hc : isSpace c = false) (hd : isSpace d = false) :
    pyStrip (c :: (mid ++ [d])) = c :: (mid ++ [d]) := by
  unfold pyStrip
  rw [List.dropWhile_cons, hc]
  simp only [Bool.false_eq_true, if_false, List.reverse_cons, List.reverse_append,
    List.reverse_cons, List.reverse_nil, List.nil_append, List.cons_append,
    List.dropWhile_cons, hd]
  simp

theorem pyStrip_goodTok (t : List Char) (h : goodTok t) : pyStrip t = t := by
  rcases h with h | h | ⟨content, hc, hq⟩ | ⟨hne, hall⟩
  · subst h; exact pyStrip_of_no_space _ (by decide)
  · subst h; exact pyStrip_of_no_space _ (by decide)
  · subst hc
    exact pyStrip_head_last '"' '"' content rfl rfl
  · exact pyStrip_of_no_space t (fun c hc => (bareChar_props c (hall c hc)).2.2.2)

theorem goodTok_ne_nil (t : List Char) (h : goodTok t) : t ≠ [] := by
  rcases h with h | h | ⟨content, hc, _⟩ | ⟨hne, _⟩
  · subst h; simp
  · subst h; simp
  · subst hc; simp
  · exact hne

theorem stripTokens_eq_self (ts : List (List Char)) (h : ∀ t ∈ ts, goodTok t) :
    stripTokens ts = ts := by
  induction ts with
  | nil => rfl
  | cons t ts ih =>
    have hgt := h t (List.mem_cons_self t ts)
    simp only [stripTokens, List.filterMap_cons]
    rw [pyStrip_goodTok t hgt] at *
    simp only [if_neg (goodTok_ne_nil t hgt)]
    have := ih (fun t' ht' => h t' (List.mem_cons_of_mem t ht'))
    simpa [stripTokens] using this

theorem tokenize_eq_raw (cs : List Char) :
    tokenize cs = tokenizeAux cs.length cs :=
  stripTokens_eq_self _ (fun t ht => tokenizeAux_goodTok cs.length cs t ht)

theorem tokenize_goodTok (cs : List Char) :
    ∀ t ∈ tokenize cs, goodTok t := by
  rw [tokenize_eq_raw]
  exact fun t ht => tokenizeAux_goodTok cs.length cs t ht

theorem tokenizeAux_cons_quote (fuel : Nat) (cs : List Char) :
    tokenizeAux (fuel + 1) ('"' :: cs) =
      match breakAtQuote cs with
      | some p => ('"' :: (p.1 ++ ['"'])) :: tokenizeAux fuel p.2
      | none => tokenizeAux fuel cs := by
  simp [tokenizeAux]

theorem tokenizeAux_cons_lb (fuel : Nat) (cs : List Char) :
    tokenizeAux (fuel + 1) ('{' :: cs) = ['{'] :: tokenizeAux fuel cs := by
  simp [tokenizeAux]

theorem tokenizeAux_cons_rb (fuel : Nat) (cs : List Char) :
    tokenizeAux (fuel + 1) ('}' :: cs) = ['}'] :: tokenizeAux fuel cs := by
  simp [tokenizeAux]

theorem tokenizeAux_cons_space (fuel : Nat) (c : Char) (cs : List Char)
    (h : isSpace c = true) :
    tokenizeAux (fuel + 1) (c :: cs) = tokenizeAux fuel cs := by
  have h1 : ¬ c = '"' := fun hh => by subst hh; exact absurd h (by decide)
  have h2 : ¬ c = '{' := fun hh => by subst hh; exact absurd h (by decide)
  have h3 : ¬ c = '}' := fun hh => by subst hh; exact absurd h (by decide)
  simp only [tokenizeAux]
  rw [if_neg h1, if_neg h2, if_neg h3, if_pos h]

set_option linter.unusedVariables false in
theorem tokenizeAux_cons_bare (fuel : Nat) (c : Char) (cs : List Char)
    (h : bareChar c = true) :
    tokenizeAux (fuel + 1) (c :: cs) =
      (c :: cs.takeWhile bareChar) :: tokenizeAux fuel (cs.dropWhile bareChar) := by
  rcases bareChar_props c h with ⟨h1, h2, h3, h4⟩
  simp only [tokenizeAux]
  rw [if_neg h1, if_neg h2, if_neg h3, if_neg (by simp [h4])]

theorem tokenize_nil : tokenize [] = [] := rfl

theorem tokenize_space (c : Char) (s : List Char) (h : isSpace c = true) :
    tokenize (c :: s) = tokenize s := by
  rw [tokenize_eq_raw, tokenize_eq_raw, List.length_cons, tokenizeAux_cons_space _ c s h]

theorem tokenize_lb (s : List Char) : tokenize ('{' :: s) = ['{'] :: tokenize s := by
  rw [tokenize_eq_raw, tokenize_eq_raw, List.length_cons, tokenizeAux_cons_lb]

theorem tokenize_rb (s : List Char) : tokenize ('}' :: s) = ['}'] :: tokenize s := by
  rw [tokenize_eq_raw, tokenize_eq_raw, List.length_cons, tokenizeAux_cons_rb]

theorem tokenize_quoted (content s : List Char) (h : ∀ ch ∈ content, ch ≠ '"') :
    tokenize ('"' :: (content ++ '"' :: s)) = ('"' :: (content ++ ['"'])) :: tokenize s := by
  rw [tokenize_eq_raw, tokenize_eq_raw, List.length_cons, tokenizeAux_cons_quote,
    breakAtQuote_of_no_quote content s h]
  have hlen : s.length ≤ (content ++ '"' :: s).length := by simp; omega
  dsimp only
  rw [tokenizeAux_fuel_irrel _ s.length s hlen le_rfl]

theorem takeWhile_bare_append (w s : List Char) (hall : ∀ c ∈ w, bareChar c = true)
    (hs : headBare s = false) :
    (w ++ s).takeWhile bareChar = w ∧ (w ++ s).dropWhile bareChar = s := by
  induction w with
  | nil =>
    simp only [List.nil_append]
    cases s with
    | nil => simp
    | cons c s' =>
      simp only [headBare] at hs
      simp [List.takeWhile_cons, List.dropWhile_cons, hs]
  | cons c w ih =>
    have hc := hall c (List.mem_cons_self c w)
    have := ih (fun c' hc' => hall c' (List.mem_cons_of_mem c hc'))
    simp [List.takeWhile_cons, List.dropWhile_cons, hc, this.1, this.2]

theorem tokenize_bare (w s : List Char) (hne : w ≠ []) (hall : ∀ c ∈ w, bareChar c = true)
    (hs : headBare s = false) :
    tokenize (w ++ s) = w :: tokenize s := by
  match w, hne with
  | c :: w', _ =>
    rw [tokenize_eq_raw, tokenize_eq_raw]
    have hc := hall c (List.mem_cons_self c w')
    have hrest := takeWhile_bare_append w' s
      (fun c' hc' => hall c' (List.mem_cons_of_mem c hc')) hs
    rw [List.cons_append, List.length_cons, tokenizeAux_cons_bare _ c _ hc,
      hrest.1, hrest.2]
    have hlen : s.length ≤ (w' ++ s).length := by simp
    rw [tokenizeAux_fuel_irrel _ s.length s hlen le_rfl]

/-! ### Tokenizing serializer output (for claim C1) -/

theorem tokenize_ws_append (a : List Char) (s : List Char)
    (h : ∀ c ∈ a, isSpace c = true) : tokenize (a ++ s) = tokenize s := by
  induction a with
  | nil => rfl
  | cons c a ih =>
    rw [List.cons_append, tokenize_space c _ (h c (List.mem_cons_self c a))]
    exact ih (fun c' hc' => h c' (List.mem_cons_of_mem c hc'))

theorem tabs_isSpace (n : Nat) : ∀ c ∈ tabs n, isSpace c = true := by
  intro c hc
  have hc' : c = '\t' := List.eq_of_mem_replicate (by simpa [tabs] using hc)
  subst hc'
  rfl

theorem tokenize_scalarLine (indent : Nat) (k v : List Char) (tail : List Char)
    (hk : ∀ c ∈ k, c ≠ '"') (hv : ∀ c ∈ v, c ≠ '"') :
    tokenize (scalarLine indent k v ++ tail) =
      quoteTok k :: quoteTok v :: tokenize tail := by
  unfold scalarLine
  simp only [List.append_assoc, List.cons_append, List.nil_append]
  rw [tokenize_ws_append _ _ (tabs_isSpace indent), tokenize_space '\t' _ rfl,
    tokenize_quoted k _ hk, tokenize_space ' ' _ rfl, tokenize_quoted v _ hv,
    tokenize_space '\n' _ rfl]
  rfl

theorem bareWord_headBare_cons (c : Char) (xs : List Char) (h : bareChar c = false) :
    headBare (c :: xs) = false := by
  simp [headBare, h]

mutual
theorem tokenize_writeEntries (content : Dict) (indent : Nat) (tail : List Char)
    (hwf : WfD content) (hb : BareD content) :
    tokenize (writeEntriesList content indent ++ tail) =
      entriesToks content ++ tokenize tail := by
  match content, hwf, hb with
  | [], _, _ => simp [writeEntriesList, entriesToks]
  | (k, JVal.str s) :: rest, hwf, hb =>
    cases hwf with
    | cons hkq hnk hv hrest =>
      cases hb with
      | cons hbk hbv hbrest =>
        cases hv with
        | str hsq =>
          rw [writeEntriesList, entriesToks]
          simp only [List.append_assoc]
          rw [tokenize_scalarLine indent k s _ hkq hsq,
            tokenize_writeEntries rest indent tail hrest hbrest]
          rfl
  | (k, JVal.obj sub) :: rest, hwf, hb =>
    cases hwf with
    | cons hkq hnk hv hrest =>
      cases hb with
      | cons hbk hbv hbrest =>
        cases hv with
        | obj hsub =>
          cases hbv with
          | obj hbsub =>
            rw [writeEntriesList, entriesToks]
            simp only [List.append_assoc]
            rw [tokenize_writeBlock k sub (indent + 1) _ (hbk trivial) hsub hbsub,
              tokenize_writeEntries rest indent tail hrest hbrest]
  | (k, JVal.arr items) :: rest, hwf, hb =>
    cases hwf with
    | cons hkq hnk hv hrest =>
      cases hb with
      | cons hbk hbv hbrest =>
        cases hv with
        | arr hlen hitems =>
          cases hbv with
          | arr hbitems =>
            rw [writeEntriesList, entriesToks]
            simp only [List.append_assoc]
            rw [tokenize_writeItems k items indent _ hkq
                (fun hex => hbk hex) hitems hbitems,
              tokenize_writeEntries rest indent tail hrest hbrest]
termination_by (sizeOf content, 1)
theorem tokenize_writeBlock (name : List Char) (content : Dict) (indent : Nat)
    (tail : List Char) (hn : bareWord name) (hwf : WfD content) (hb : BareD content) :
    tokenize (writeVMFBlock name content indent ++ tail) =
      blockToks name content ++ tokenize tail := by
  rw [writeVMFBlock, blockToks]
  simp only [List.append_assoc, List.cons_append]
  rw [tokenize_ws_append _ _ (tabs_isSpace indent),
    tokenize_bare name _ hn.1 hn.2 (bareWord_headBare_cons '\n' _ rfl),
    tokenize_space '\n' _ rfl, tokenize_ws_append _ _ (tabs_isSpace indent),
    tokenize_lb, tokenize_space '\n' _ rfl,
    tokenize_writeEntries content indent _ hwf hb,
    tokenize_ws_append _ _ (tabs_isSpace indent), tokenize_rb,
    tokenize_space '\n' _ rfl]
  simp
termination_by (sizeOf content, 2)
theorem tokenize_writeItems (k : List Char) (items : List JVal) (indent : Nat)
    (tail : List Char) (hk : ∀ c ∈ k, c ≠ '"')
    (hkb : (∃ it ∈ items, ∃ sub, it = JVal.obj sub) → bareWord k)
    (hwl : WfL items) (hbl : BareL items) :
    tokenize (writeListItems k items indent ++ tail) =
      itemsToks k items ++ tokenize tail := by
  match items, hwl, hbl with
  | [], _, _ => simp [writeListItems, itemsToks]
  | JVal.str s :: rest, hwl, hbl =>
    cases hwl with
    | cons hna hvi hrest =>
      cases hbl with
      | cons hbvi hbrest =>
        have hkb' : (∃ it ∈ rest, ∃ sub, it = JVal.obj sub) → bareWord k :=
          fun ⟨it, hit, hsub⟩ => hkb ⟨it, List.mem_cons_of_mem _ hit, hsub⟩
        cases hvi with
        | str hsq =>
          rw [writeListItems, itemsToks]
          simp only [List.append_assoc]
          rw [tokenize_scalarLine indent k s _ hk hsq,
            tokenize_writeItems k rest indent tail hk hkb' hrest hbrest]
          rfl
  | JVal.obj sub :: rest, hwl, hbl =>
    cases hwl with
    | cons hna hvi hrest =>
      cases hbl with
      | cons hbvi hbrest =>
        have hkb' : (∃ it ∈ rest, ∃ sub, it = JVal.obj sub) → bareWord k :=
          fun ⟨it, hit, hsub⟩ => hkb ⟨it, List.mem_cons_of_mem _ hit, hsub⟩
        cases hvi with
        | obj hsub =>
          cases hbvi with
          | obj hbsub =>
            rw [writeListItems, itemsToks]
            simp only [List.append_assoc]
            rw [tokenize_writeBlock k sub (indent + 1) _
                (hkb ⟨.obj sub, List.mem_cons_self _ _, sub, rfl⟩) hsub hbsub,
              tokenize_writeItems k rest indent tail hk hkb' hrest hbrest]
  | JVal.arr sub :: rest, hwl, _ =>
    cases hwl with
    | cons hna hvi hrest =>
      exact absurd (show isArr (JVal.arr sub) from trivial) hna
termination_by (sizeOf items, 1)
end

/-! ### Rebuilding a mapping from its replayed bindings (for claim C1) -/

theorem addKV_nil (k : List Char) (v : JVal) : addKV [] k v = [(k, v)] := rfl

theorem containsKey_cons (k0 : List Char) (v0 : JVal) (d : Dict) (k : List Char) :
    containsKey ((k0, v0) :: d) k = (decide (k0 = k) || containsKey d k) := by
  simp [containsKey]

theorem addKV_cons_ne (k0 : List Char) (v0 : JVal) (d : Dict) (k : List Char) (v : JVal)
    (hne : k0 ≠ k) : addKV ((k0, v0) :: d) k v = (k0, v0) :: addKV d k v := by
  unfold addKV
  rw [containsKey_cons]
  simp only [hne, decide_False, Bool.false_or]
  by_cases hc : containsKey d k
  · rw [if_pos hc, if_pos hc]
    simp [updEntry, hne]
  · rw [if_neg hc, if_neg hc]
    simp

theorem foldl_addKV_cons_ne (bs : List (List Char × JVal)) :
    ∀ (k0 : List Char) (v0 : JVal) (d : Dict), (∀ e ∈ bs, e.1 ≠ k0) →
      bs.foldl (fun d e => addKV d e.1 e.2) ((k0, v0) :: d) =
        (k0, v0) :: bs.foldl (fun d e => addKV d e.1 e.2) d := by
  induction bs with
  | nil => intro k0 v0 d _; rfl
  | cons e bs ih =>
    intro k0 v0 d h
    simp only [List.foldl_cons]
    rw [addKV_cons_ne _ _ _ _ _ (fun hh => h e (List.mem_cons_self e bs) hh.symm)]
    exact ih k0 v0 _ (fun e' he' => h e' (List.mem_cons_of_mem e he'))

theorem foldl_addKV_arr_grow (more : List JVal) :
    ∀ (k : List Char) (acc : List JVal),
      (more.map (fun it => (k, it))).foldl (fun d e => addKV d e.1 e.2) [(k, JVal.arr acc)] =
        [(k, JVal.arr (acc ++ more))] := by
  induction more with
  | nil => intro k acc; simp
  | cons it more ih =>
    intro k acc
    simp only [List.map_cons, List.foldl_cons]
    have h1 : addKV [(k, JVal.arr acc)] k it = [(k, JVal.arr (acc ++ [it]))] := by
      unfold addKV
      rw [if_pos (by simp [containsKey])]
      simp [updEntry, promote]
    rw [h1, ih k (acc ++ [it])]
    simp

theorem entry_rebuild (k : List Char) (v : JVal) (hv : WfV v) :
    (bindingsOf [(k, v)]).foldl (fun d e => addKV d e.1 e.2) [] = [(k, v)] := by
  cases hv with
  | str hs => rfl
  | obj hd => rfl
  | arr hlen hitems =>
    rename_i items
    match items, hlen, hitems with
    | v1 :: v2 :: vs, _, hitems =>
      cases hitems with
      | cons hna1 hv1 hrest =>
        simp only [bindingsOf, List.flatMap_cons, List.flatMap_nil, List.append_nil,
          List.map_cons, List.foldl_cons]
        rw [addKV_nil]
        have h2 : addKV [(k, v1)] k v2 = [(k, JVal.arr [v1, v2])] := by
          unfold addKV
          rw [if_pos (by simp [containsKey])]
          simp only [updEntry, if_pos rfl]
          cases hv : v1
          · rfl
          · rfl
          · simp [hv, isArr] at hna1
        rw [h2, foldl_addKV_arr_grow vs k [v1, v2]]
        simp

theorem containsKey_false_forall (d : Dict) (k : List Char)
    (h : containsKey d k = false) : ∀ e ∈ d, e.1 ≠ k := by
  intro e he
  simp only [containsKey, List.any_eq_false, decide_eq_true_eq] at h
  exact h e he

theorem bindingsOf_key_mem (d : Dict) (e : List Char × JVal) (he : e ∈ bindingsOf d) :
    ∃ e' ∈ d, e.1 = e'.1 := by
  unfold bindingsOf at he
  rcases List.mem_flatMap.mp he with ⟨e', he', hin⟩
  refine ⟨e', he', ?_⟩
  cases hv : e'.2 with
  | arr items => rw [hv] at hin; rcases List.mem_map.mp hin with ⟨it, _, rfl⟩; rfl
  | str s => rw [hv] at hin; simp only [List.mem_singleton] at hin; rw [hin]
  | obj sub => rw [hv] at hin; simp only [List.mem_singleton] at hin; rw [hin]

theorem dict_rebuild (d : Dict) (hwf : WfD d) :
    (bindingsOf d).foldl (fun d e => addKV d e.1 e.2) [] = d := by
  induction d with
  | nil => rfl
  | cons e rest ih =>
    obtain ⟨k, v⟩ := e
    cases hwf with
    | cons hkq hnk hv hrest =>
      have hsplit : bindingsOf ((k, v) :: rest) = bindingsOf [(k, v)] ++ bindingsOf rest := by
        simp [bindingsOf]
      rw [hsplit, List.foldl_append, entry_rebuild k v hv,
        foldl_addKV_cons_ne _ k v [] ?keys, ih hrest]
      case keys =>
        intro e' he'
        rcases bindingsOf_key_mem rest e' he' with ⟨e'', he'', heq⟩
        rw [heq]
        exact containsKey_false_forall rest k hnk e'' he''

/-! ### Parsing serializer output (for claim C1) -/

theorem quoteTok_ne_rb (s : List Char) : quoteTok s ≠ ['}'] := by simp [quoteTok]

theorem quoteTok_ne_lb (s : List Char) : quoteTok s ≠ ['{'] := by simp [quoteTok]

theorem quoteTok_head (s : List Char) : (quoteTok s).head? = some '"' := rfl

theorem dropWhile_quote_eq_self (l : List Char) (h : ∀ c ∈ l, c ≠ '"') :
    l.dropWhile (fun c => c == '"') = l := by
  cases l with
  | nil => rfl
  | cons c rest =>
    rw [List.dropWhile_cons,
      if_neg (by simp [beq_eq_false_iff_ne.mpr (h c (List.mem_cons_self c rest))])]

theorem stripQuoteMarks_quoteTok (s : List Char) (h : ∀ c ∈ s, c ≠ '"') :
    stripQuoteMarks (quoteTok s) = s := by
  unfold stripQuoteMarks quoteTok
  cases s with
  | nil => rfl
  | cons c s' =>
    have hc : (c == '"') = false :=
      beq_eq_false_iff_ne.mpr (h c (List.mem_cons_self c s'))
    rw [List.dropWhile_cons]
    simp only [beq_self_eq_true, if_true, List.cons_append]
    rw [List.dropWhile_cons, hc]
    simp only [Bool.false_eq_true, if_false]
    rw [show (c :: (s' ++ ['"'])).reverse = '"' :: (s'.reverse ++ [c]) by simp]
    rw [List.dropWhile_cons]
    simp only [beq_self_eq_true, if_true]
    rw [dropWhile_quote_eq_self _ ?hq]
    · simp
    case hq =>
      intro x hx
      rcases List.mem_append.mp hx with hx | hx
      · exact h x (List.mem_cons_of_mem c (List.mem_reverse.mp hx))
      · rw [List.mem_singleton.mp hx]
        exact h c (List.mem_cons_self c s')

theorem bareWord_ne_rb (k : List Char) (h : bareWord k) : k ≠ ['}'] := by
  intro hh
  subst hh
  exact absurd (h.2 '}' (List.mem_singleton_self '}')) (by decide)

theorem bareWord_ne_lb (k : List Char) (h : bareWord k) : k ≠ ['{'] := by
  intro hh
  subst hh
  exact absurd (h.2 '{' (List.mem_singleton_self '{')) (by decide)

theorem bareWord_head_not_quote (k : List Char) (h : bareWord k) :
    ¬ k.head? = some '"' := by
  cases k with
  | nil => simp
  | cons c rest =>
    simp only [List.head?_cons, Option.some.injEq]
    intro hh
    subst hh
    exact absurd (h.2 '"' (List.mem_cons_self _ _)) (by decide)

mutual
theorem parse_entriesToks (content : Dict) (hwf : WfD content) (hb : BareD content) :
    ∀ (tail : List (List Char)) (data : Dict),
      parseBlockAux (entriesToks content ++ tail).length (entriesToks content ++ tail)
          data none =
        parseBlockAux tail.length tail
          ((bindingsOf content).foldl (fun d e => addKV d e.1 e.2) data) none := by
  match content, hwf, hb with
  | [], _, _ =>
    intro tail data
    simp [entriesToks, bindingsOf]
  | (k, JVal.str s) :: rest, hwf, hb =>
    intro tail data
    cases hwf with
    | cons hkq hnk hv hrest =>
      cases hb with
      | cons hbk hbv hbrest =>
        cases hv with
        | str hsq =>
          rw [entriesToks]
          simp only [List.cons_append, List.nil_append, List.append_assoc]
          rw [parseBR_quoted_none _ _ _ (quoteTok_ne_rb k) (quoteTok_ne_lb k)
              (quoteTok_head k),
            stripQuoteMarks_quoteTok k hkq,
            parseBR_quoted_some _ _ _ _ (quoteTok_ne_rb s) (quoteTok_ne_lb s)
              (quoteTok_head s),
            stripQuoteMarks_quoteTok s hsq,
            parse_entriesToks rest hrest hbrest tail (addKV data k (.str s))]
          have hbind : bindingsOf ((k, JVal.str s) :: rest) =
              (k, JVal.str s) :: bindingsOf rest := by simp [bindingsOf]
          rw [hbind, List.foldl_cons]
  | (k, JVal.obj sub) :: rest, hwf, hb =>
    intro tail data
    cases hwf with
    | cons hkq hnk hv hrest =>
      cases hb with
      | cons hbk hbv hbrest =>
        cases hv with
        | obj hsub =>
          cases hbv with
          | obj hbsub =>
            have hbare : bareWord k := hbk trivial
            rw [entriesToks]
            simp only [blockToks, List.cons_append, List.nil_append, List.append_assoc]
            rw [parseBR_bare_none k _ data (bareWord_ne_rb k hbare)
                (bareWord_ne_lb k hbare) (bareWord_head_not_quote k hbare),
              parseBR_lb_some,
              parse_entriesToks sub hsub hbsub (['}'] :: (entriesToks rest ++ tail)) [],
              parseBR_rb]
            dsimp only
            rw [dict_rebuild sub hsub,
              parse_entriesToks rest hrest hbrest tail (addKV data k (.obj sub))]
            have hbind : bindingsOf ((k, JVal.obj sub) :: rest) =
                (k, JVal.obj sub) :: bindingsOf rest := by simp [bindingsOf]
            rw [hbind, List.foldl_cons]
  | (k, JVal.arr items) :: rest, hwf, hb =>
    intro tail data
    cases hwf with
    | cons hkq hnk hv hrest =>
      cases hb with
      | cons hbk hbv hbrest =>
        cases hv with
        | arr hlen hitems =>
          cases hbv with
          | arr hbitems =>
            rw [entriesToks]
            simp only [List.append_assoc]
            rw [parse_itemsToks k items hkq (fun hex => hbk hex) hitems hbitems
                (entriesToks rest ++ tail) data,
              parse_entriesToks rest hrest hbrest tail _]
            have hbind : bindingsOf ((k, JVal.arr items) :: rest) =
                items.map (fun it => (k, it)) ++ bindingsOf rest := by simp [bindingsOf]
            rw [hbind, List.foldl_append]
termination_by sizeOf content
theorem parse_itemsToks (k : List Char) (items : List JVal)
    (hk : ∀ c ∈ k, c ≠ '"')
    (hkb : (∃ it ∈ items, ∃ sub, it = JVal.obj sub) → bareWord k)
    (hwl : WfL items) (hbl : BareL items) :
    ∀ (tail : List (List Char)) (data : Dict),
      parseBlockAux (itemsToks k items ++ tail).length (itemsToks k items ++ tail)
          data none =
        parseBlockAux tail.length tail
          ((items.map (fun it => (k, it))).foldl (fun d e => addKV d e.1 e.2) data) none := by
  match items, hwl, hbl with
  | [], _, _ =>
    intro tail data
    simp [itemsToks]
  | JVal.str s :: rest, hwl, hbl =>
    intro tail data
    cases hwl with
    | cons hna hvi hrest =>
      cases hbl with
      | cons hbvi hbrest =>
        have hkb' : (∃ it ∈ rest, ∃ sub, it = JVal.obj sub) → bareWord k :=
          fun ⟨it, hit, hsub⟩ => hkb ⟨it, List.mem_cons_of_mem _ hit, hsub⟩
        cases hvi with
        | str hsq =>
          rw [itemsToks]
          simp only [List.cons_append, List.nil_append, List.append_assoc]
          rw [parseBR_quoted_none _ _ _ (quoteTok_ne_rb k) (quoteTok_ne_lb k)
              (quoteTok_head k),
            stripQuoteMarks_quoteTok k hk,
            parseBR_quoted_some _ _ _ _ (quoteTok_ne_rb s) (quoteTok_ne_lb s)
              (quoteTok_head s),
            stripQuoteMarks_quoteTok s hsq,
            parse_itemsToks k rest hk hkb' hrest hbrest tail (addKV data k (.str s))]
          rw [List.map_cons, List.foldl_cons]
  | JVal.obj sub :: rest, hwl, hbl =>
    intro tail data
    cases hwl with
    | cons hna hvi hrest =>
      cases hbl with
      | cons hbvi hbrest =>
        have hkb' : (∃ it ∈ rest, ∃ sub, it = JVal.obj sub) → bareWord k :=
          fun ⟨it, hit, hsub⟩ => hkb ⟨it, List.mem_cons_of_mem _ hit, hsub⟩
        cases hvi with
        | obj hsub =>
          cases hbvi with
          | obj hbsub =>
            have hbare : bareWord k := hkb ⟨.obj sub, List.mem_cons_self _ _, sub, rfl⟩
            rw [itemsToks]
            simp only [blockToks, List.cons_append, List.nil_append, List.append_assoc]
            rw [parseBR_bare_none k _ data (bareWord_ne_rb k hbare)
                (bareWord_ne_lb k hbare) (bareWord_head_not_quote k hbare),
              parseBR_lb_some,
              parse_entriesToks sub hsub hbsub (['}'] :: (itemsToks k rest ++ tail)) [],
              parseBR_rb]
            dsimp only
            rw [dict_rebuild sub hsub,
              parse_itemsToks k rest hk hkb' hrest hbrest tail (addKV data k (.obj sub))]
            rw [List.map_cons, List.foldl_cons]
  | JVal.arr sub :: rest, hwl, _ =>
    intro tail data
    cases hwl with
    | cons hna hvi hrest =>
      exact absurd (show isArr (JVal.arr sub) from trivial) hna
termination_by sizeOf items
end

/-! ### The parser only builds well-formed mappings -/

theorem WfL_append (v : JVal) (hna : ¬ isArr v) (hv : WfV v) :
    ∀ items, WfL items → WfL (items ++ [v]) := by
  intro items
  induction items with
  | nil => intro _; exact WfL.cons hna hv WfL.nil
  | cons x rest ih =>
    intro hl
    cases hl with
    | cons hna' hv' hrest => exact WfL.cons hna' hv' (ih hrest)

theorem promote_wf (old v : JVal) (hold : WfV old) (hna : ¬ isArr v) (hv : WfV v) :
    WfV (promote old v) := by
  cases hold with
  | arr hlen hl =>
    refine WfV.arr ?_ (WfL_append v hna hv _ hl)
    simp only [List.length_append, List.length_singleton]
    omega
  | str hs =>
    exact WfV.arr (by simp) (WfL.cons (by simp [isArr]) (WfV.str hs)
      (WfL.cons hna hv WfL.nil))
  | obj hd =>
    exact WfV.arr (by simp) (WfL.cons (by simp [isArr]) (WfV.obj hd)
      (WfL.cons hna hv WfL.nil))

theorem containsKey_updEntry (d : Dict) (k : List Char) (v : JVal) (k' : List Char) :
    containsKey (updEntry d k v) k' = containsKey d k' := by
  induction d with
  | nil => rfl
  | cons e rest ih =>
    simp only [updEntry]
    by_cases h : e.1 = k
    · rw [if_pos h]
      simp [containsKey]
    · rw [if_neg h]
      simp only [containsKey, List.any_cons] at ih ⊢
      rw [ih]

theorem containsKey_append (d1 d2 : Dict) (k : List Char) :
    containsKey (d1 ++ d2) k = (containsKey d1 k || containsKey d2 k) := by
  simp [containsKey, List.any_append]

theorem updEntry_wf (k : List Char) (v : JVal) (hna : ¬ isArr v) (hv : WfV v) :
    ∀ d, WfD d → WfD (updEntry d k v) := by
  intro d
  induction d with
  | nil => intro _; exact WfD.nil
  | cons e rest0 ih =>
    intro hwf
    obtain ⟨k0, v0⟩ := e
    cases hwf with
    | cons hkq hnk hv' hrest =>
      by_cases h : k0 = k
      · have heq : updEntry ((k0, v0) :: rest0) k v = (k0, promote v0 v) :: rest0 := by
          simp [updEntry, h]
        rw [heq]
        exact WfD.cons hkq hnk (promote_wf v0 v hv' hna hv) hrest
      · have heq : updEntry ((k0, v0) :: rest0) k v = (k0, v0) :: updEntry rest0 k v := by
          simp [updEntry, h]
        rw [heq]
        exact WfD.cons hkq (by rw [containsKey_updEntry]; exact hnk) hv' (ih hrest)

theorem append_entry_wf (k : List Char) (v : JVal)
    (hkq : ∀ c ∈ k, c ≠ '"') (hv : WfV v) :
    ∀ d, WfD d → containsKey d k = false → WfD (d ++ [(k, v)]) := by
  intro d
  induction d with
  | nil => intro _ _; exact WfD.cons hkq rfl hv WfD.nil
  | cons e rest0 ih =>
    intro hwf hnc
    obtain ⟨k0, v0⟩ := e
    cases hwf with
    | cons hkq' hnk hv' hrest =>
      rw [containsKey_cons] at hnc
      simp only [Bool.or_eq_false_iff, decide_eq_false_iff_not] at hnc
      refine WfD.cons hkq' ?_ hv' (ih hrest hnc.2)
      simp only [List.append_eq]
      rw [containsKey_append, hnk]
      simp only [containsKey, List.any_cons, List.any_nil, Bool.or_false,
        Bool.false_or, decide_eq_false_iff_not]
      exact fun hh => hnc.1 hh.symm

theorem addKV_wf (d : Dict) (k : List Char) (v : JVal) (hwf : WfD d)
    (hkq : ∀ c ∈ k, c ≠ '"') (hna : ¬ isArr v) (hv : WfV v) : WfD (addKV d k v) := by
  unfold addKV
  by_cases hc : containsKey d k
  · rw [if_pos hc]
    exact updEntry_wf k v hna hv d hwf
  · rw [if_neg hc]
    exact append_entry_wf k v hkq hv d hwf (Bool.not_eq_true _ ▸ hc)

theorem stripQuoteMarks_quote_free (t : List Char) (hg : goodTok t) :
    ∀ c ∈ stripQuoteMarks t, c ≠ '"' := by
  rcases hg with h | h | ⟨content, hc, hq⟩ | ⟨hne, hall⟩
  · subst h
    intro c hc
    simp only [show stripQuoteMarks ['{'] = ['{'] from rfl, List.mem_singleton] at hc
    subst hc
    decide
  · subst h
    intro c hc
    simp only [show stripQuoteMarks ['}'] = ['}'] from rfl, List.mem_singleton] at hc
    subst hc
    decide
  · subst hc
    intro c hmem
    rw [show ('"' :: (content ++ ['"'])) = quoteTok content from rfl,
      stripQuoteMarks_quoteTok content hq] at hmem
    exact hq c hmem
  · intro c hmem
    have hqf : ∀ c ∈ t, c ≠ '"' := fun c hc => (bareChar_props c (hall c hc)).1
    have : stripQuoteMarks t = t := by
      unfold stripQuoteMarks
      rw [dropWhile_quote_eq_self t hqf,
        dropWhile_quote_eq_self t.reverse (fun c hc => hqf c (List.mem_reverse.mp hc)),
        List.reverse_reverse]
    rw [this] at hmem
    exact hqf c hmem

theorem bare_token_quote_free (t : List Char) (hg : goodTok t)
    (h1 : t ≠ ['}']) (h2 : t ≠ ['{']) (h3 : ¬ t.head? = some '"') :
    ∀ c ∈ t, c ≠ '"' := by
  rcases hg with h | h | ⟨content, hc, _⟩ | ⟨hne, hall⟩
  · exact absurd h h2
  · exact absurd h h1
  · subst hc; simp at h3
  · exact fun c hc => (bareChar_props c (hall c hc)).1

theorem parseBlockAux_rest_subset (fuel : Nat) :
    ∀ toks data key t, t ∈ (parseBlockAux fuel toks data key).2 → t ∈ toks := by
  induction fuel with
  | zero => intro toks data key t ht; simpa [parseBlockAux] using ht
  | succ f ih =>
    intro toks data key t ht
    match toks with
    | [] => simp [parseBlockAux] at ht
    | u :: rest =>
      simp only [parseBlockAux] at ht
      by_cases h1 : u = ['}']
      · rw [if_pos h1] at ht
        exact List.mem_cons_of_mem u ht
      · rw [if_neg h1] at ht
        by_cases h2 : u = ['{']
        · rw [if_pos h2] at ht
          cases key with
          | none => exact List.mem_cons_of_mem u (ih rest data none t ht)
          | some k =>
            dsimp only at ht
            have := ih _ _ none t ht
            exact List.mem_cons_of_mem u (ih rest [] none t this)
        · rw [if_neg h2] at ht
          by_cases h3 : u.head? = some '"'
          · rw [if_pos h3] at ht
            cases key with
            | none => exact List.mem_cons_of_mem u (ih rest data _ t ht)
            | some k => exact List.mem_cons_of_mem u (ih rest _ none t ht)
          · rw [if_neg h3] at ht
            cases key with
            | none => exact List.mem_cons_of_mem u (ih rest data _ t ht)
            | some k => exact List.mem_cons_of_mem u (ih rest _ none t ht)

theorem parseBlockAux_wf (fuel : Nat) :
    ∀ toks data key, (∀ t ∈ toks, goodTok t) → WfD data →
      (∀ k, key = some k → ∀ c ∈ k, c ≠ '"') →
      WfD (parseBlockAux fuel toks data key).1 := by
  induction fuel with
  | zero => intro toks data key _ hdata _; simpa [parseBlockAux] using hdata
  | succ f ih =>
    intro toks data key htoks hdata hkey
    match toks with
    | [] => simpa [parseBlockAux] using hdata
    | u :: rest =>
      have hu : goodTok u := htoks u (List.mem_cons_self u rest)
      have hrest : ∀ t ∈ rest, goodTok t := fun t ht => htoks t (List.mem_cons_of_mem u ht)
      simp only [parseBlockAux]
      by_cases h1 : u = ['}']
      · rw [if_pos h1]
        exact hdata
      · rw [if_neg h1]
        by_cases h2 : u = ['{']
        · rw [if_pos h2]
          cases key with
          | none => exact ih rest data none hrest hdata (by simp)
          | some k =>
            dsimp only
            refine ih _ _ none (fun t ht => hrest t (parseBlockAux_rest_subset f rest [] none t ht)) ?_ (by simp)
            refine addKV_wf _ _ _ hdata (hkey k rfl) (by simp [isArr]) ?_
            exact WfV.obj (ih rest [] none hrest WfD.nil (by simp))
        · rw [if_neg h2]
          by_cases h3 : u.head? = some '"'
          · rw [if_pos h3]
            cases key with
            | none =>
              refine ih rest data _ hrest hdata ?_
              intro k hk
              rw [Option.some.injEq] at hk
              subst hk
              exact stripQuoteMarks_quote_free u hu
            | some k =>
              refine ih rest _ none hrest ?_ (by simp)
              exact addKV_wf _ _ _ hdata (hkey k rfl) (by simp [isArr])
                (WfV.str (stripQuoteMarks_quote_free u hu))
          · rw [if_neg h3]
            cases key with
            | none =>
              refine ih rest data _ hrest hdata ?_
              intro k hk
              rw [Option.some.injEq] at hk
              subst hk
              exact bare_token_quote_free u hu h1 h2 h3
            | some k =>
              refine ih rest _ none hrest ?_ (by simp)
              exact addKV_wf _ _ _ hdata (hkey k rfl) (by simp [isArr])
                (WfV.str (bare_token_quote_free u hu h1 h2 h3))

theorem parseVMF_wf (text : List Char) : WfD (parseVMF text) :=
  parseBlockAux_wf _ _ [] none (tokenize_goodTok text) WfD.nil (by simp)

/-- Claim C1 counterexample.  The document `"a b"` `{` `}` is well formed
(a quoted key naming an empty block), and parses to the mapping with the
single block key `a b`.  Serializing with `write_vmf_block` writes that
block key bare, so re-parsing the serialized text yields the mapping
`a = b` instead: the round trip of the claim fails on this well-formed
document. -/
theorem roundtrip_fails_on_spaced_block_key :
    parseVMF c1Text = [(['a', ' ', 'b'], JVal.obj [])] ∧
      parseVMF (writeTop (parseVMF c1Text)) = [(['a'], JVal.str ['b'])] ∧
      parseVMF (writeTop (parseVMF c1Text)) ≠ parseVMF c1Text := by
  have h1 : parseVMF c1Text = [(['a', ' ', 'b'], JVal.obj [])] := rfl
  have hw : writeTop [(['a', ' ', 'b'], JVal.obj [])] =
      ['\t', 'a', ' ', 'b', '\n', '\t', '{', '\n', '\t', '}', '\n'] := by
    simp [writeTop, writeEntriesList, writeVMFBlock, tabs]
  have h2 : parseVMF ['\t', 'a', ' ', 'b', '\n', '\t', '{', '\n', '\t', '}', '\n'] =
      [(['a'], JVal.str ['b'])] := rfl
  refine ⟨h1, ?_, ?_⟩
  · rw [h1, hw, h2]
  · rw [h1, hw, h2]
    simp

/-- Claim C1 (amended).  Re-parsing the serialized form of a parsed document
reproduces the parsed tree, provided every key that the serializer writes as
a bare block name (a key bound to a nested mapping, or to a list containing
one) is a nonempty word of bare characters — no whitespace, braces or
quotes.  Without that proviso the round trip fails (see the
counterexample): `write_vmf_block` writes block names unquoted. -/
theorem serialize_reparse_roundtrip (t : List Char) (hb : BareD (parseVMF t)) :
    parseVMF (writeTop (parseVMF t)) = parseVMF t := by
  have hwf : WfD (parseVMF t) := parseVMF_wf t
  generalize hd : parseVMF t = d at hb hwf ⊢
  show parseBlock (tokenize (writeEntriesList d 0)) = d
  have htok : tokenize (writeEntriesList d 0) = entriesToks d := by
    have h := tokenize_writeEntries d 0 [] hwf hb
    rw [List.append_nil] at h
    rw [h, tokenize_nil, List.append_nil]
  rw [htok]
  show (parseBlockAux (entriesToks d).length (entriesToks d) [] none).1 = d
  have hM := parse_entriesToks d hwf hb [] []
  rw [List.append_nil] at hM
  rw [hM]
  exact dict_rebuild d hwf

/-- Witness for the amended claim C1: a concrete document with a bare block
key and a repeated inner key, whose parse satisfies the bare-block-key
proviso and round-trips. -/
theorem serialize_reparse_roundtrip_witness :
    BareD (parseVMF c1WitnessText) ∧
      parseVMF (writeTop (parseVMF c1WitnessText)) = parseVMF c1WitnessText := by
  have hb : BareD (parseVMF c1WitnessText) := by
    show BareD [(['v', 'e', 'r', 's', 'i', 'o', 'n', 'i', 'n', 'f', 'o'],
      JVal.obj [(['k'], JVal.arr [JVal.str ['1'], JVal.str ['2']])])]
    refine BareD.cons (fun _ => ⟨by simp, by decide⟩) (BareV.obj ?_) BareD.nil
    refine BareD.cons (fun hn => absurd hn (by simp [needsBareKey])) (BareV.arr ?_) BareD.nil
    exact BareL.cons BareV.str (BareL.cons BareV.str BareL.nil)
  exact ⟨hb, serialize_reparse_roundtrip c1WitnessText hb⟩

/-- Claim C5 counterexample.  On the document
`"a" "1" { "b" "2" } "c" "3"` the parser does not discard the contents of
the unkeyed block: the binding `b = 2` from inside the block lands in the
top-level mapping, and the tokens after the closing brace (`"c" "3"`) are
never parsed, because that brace terminates the top-level block.  The claim
predicted the opposite on both counts. -/
theorem unkeyed_block_contents_kept :
    parseVMF c5Text = [(['a'], JVal.str ['1']), (['b'], JVal.str ['2'])] ∧
      lookupD (parseVMF c5Text) ['b'] = some (JVal.str ['2']) ∧
      lookupD (parseVMF c5Text) ['c'] = none :=
  ⟨rfl, rfl, rfl⟩

/-- Claim C5 (amended).  When `parse_block` meets a `{` token with no key
pending it skips only that single token and keeps scanning at the same
level: the keys inside the unkeyed block are therefore merged into the
current mapping, and the matching `}` terminates the current mapping early
(so tokens after it at the original level are not parsed into it).  On the
document of the counterexample this yields exactly the mapping
`a = 1, b = 2`. -/
theorem unkeyed_block_skips_token_only :
    (∀ (fuel : Nat) (rest : List (List Char)) (data : Dict),
        parseBlockAux (fuel + 1) (['{'] :: rest) data none =
          parseBlockAux fuel rest data none) ∧
      parseVMF c5Text = [(['a'], JVal.str ['1']), (['b'], JVal.str ['2'])] := by
  refine ⟨fun fuel rest data => ?_, rfl⟩
  simp [parseBlockAux]

/-- Claim C2.  In every mapping `parse_block` produces, a key bound more
than once at one nesting level holds the list of its bound values in
first-occurrence order, and a key bound exactly once holds its single value
unwrapped: the lookup of any key in the parse result is exactly the
`listFold` of the values that the binding-event sequence (`parseBinds`)
assigns that key, and no bound value is itself a list. -/
theorem parse_block_folds_repeated_keys (toks : List (List Char)) (k : List Char) :
    lookupD (parseBlock toks) k = listFold (valuesOf k (parseBinds toks)) ∧
      ∀ e ∈ parseBinds toks, ¬ isArr e.2 := by
  constructor
  · unfold parseBlock parseBinds
    rw [parseBlockAux_eq_foldl_binds]
    simp only []
    rw [lookupD_foldl_addKV _ _ _ (fun e he => parseBindsAux_values_not_arr _ _ _ e he)]
    simp [lookupD]
  · exact fun e he => parseBindsAux_values_not_arr _ _ _ e he

/-! ### Vector algebra facts -/

theorem Vertex.add_eval (a b : Vertex) : a + b = ⟨a.x + b.x, a.y + b.y, a.z + b.z⟩ := rfl

theorem Vertex.sub_eval (a b : Vertex) : a - b = ⟨a.x - b.x, a.y - b.y, a.z - b.z⟩ := rfl

theorem Vertex.zero_eval : (0 : Vertex) = ⟨0, 0, 0⟩ := rfl

theorem magnitude_normalize (v : Vertex) : v.normalize.magnitude = 1 := by
  unfold Vertex.normalize
  by_cases h : v.magnitude < 1e-10
  · rw [if_pos h]
    show Real.sqrt ((0 : ℝ) ^ 2 + (0 : ℝ) ^ 2 + (1 : ℝ) ^ 2) = 1
    norm_num
  · rw [if_neg h]
    have hpos : 0 < v.magnitude := lt_of_lt_of_le (by norm_num) (not_lt.mp h)
    have hS : (0 : ℝ) < v.x ^ 2 + v.y ^ 2 + v.z ^ 2 := by
      have := Real.sqrt_pos.mp (by simpa [Vertex.magnitude] using hpos)
      exact this
    show Real.sqrt (_ ^ 2 + _ ^ 2 + _ ^ 2) = 1
    rw [div_pow, div_pow, div_pow, div_add_div_same, div_add_div_same]
    have hm2 : v.magnitude ^ 2 = v.x ^ 2 + v.y ^ 2 + v.z ^ 2 := by
      unfold Vertex.magnitude
      exact Real.sq_sqrt (le_of_lt hS)
    rw [hm2, div_self (ne_of_gt hS)]
    exact Real.sqrt_one

theorem magnitude_scale_neg (v : Vertex) : (v.scale (-1)).magnitude = v.magnitude := by
  unfold Vertex.scale Vertex.magnitude
  congr 1
  ring

theorem magnitude_orientCorrect (s : Side) (parent : Option Solid) (n : Vertex) :
    (orientCorrect s parent n).magnitude = n.magnitude := by
  unfold orientCorrect
  split
  · rfl
  · split
    · split
      · exact magnitude_scale_neg n
      · rfl
    · rfl

theorem magnitude_preNormal (pts : List Vertex) : (preNormal pts).magnitude = 1 :=
  magnitude_normalize _

/-- Claim C3.  For every face with at least 3 usable points `compute_normal`
succeeds; the points used are `vertices_plus` when that loop has at least 3
points and the plane points otherwise; the returned normal is the
orientation-corrected normalization of the triangle cross product
`(p2 - p1) × (p3 - p1)` when there are exactly 3 points and of the Newell
accumulation when there are 4 or more; and the result has magnitude exactly
1 (hence within 1e-6) — the degenerate fallback `(0, 0, 1)` included, since
it is itself a unit vector. -/
theorem compute_normal_structure_and_unit (s : Side) (parent : Option Solid)
    (h3 : 3 ≤ s.pointsToUse.length) :
    ∃ n, s.computeNormal parent = some n ∧
      n = orientCorrect s parent (preNormal s.pointsToUse) ∧
      n.magnitude = 1 ∧
      s.pointsToUse = (if 3 ≤ s.vertices_plus.length then s.vertices_plus else s.plane) ∧
      (s.pointsToUse.length = 3 →
        preNormal s.pointsToUse =
          ((s.pointsToUse.getD 1 ⟨0, 0, 0⟩ - s.pointsToUse.getD 0 ⟨0, 0, 0⟩).cross
            (s.pointsToUse.getD 2 ⟨0, 0, 0⟩ - s.pointsToUse.getD 0 ⟨0, 0, 0⟩)).normalize) ∧
      (4 ≤ s.pointsToUse.length →
        preNormal s.pointsToUse = (newellSum s.pointsToUse).normalize) := by
  refine ⟨orientCorrect s parent (preNormal s.pointsToUse), ?_, rfl, ?_, rfl, ?_, ?_⟩
  · unfold Side.computeNormal
    rw [if_neg (not_lt.mpr h3)]
  · rw [magnitude_orientCorrect, magnitude_preNormal]
  · intro hlen
    unfold preNormal rawNormalVec
    rw [if_pos hlen]
  · intro hlen
    unfold preNormal rawNormalVec
    rw [if_neg (by omega)]

/-- Witness for claim C3 at a concrete horizontal triangle. -/
theorem compute_normal_structure_and_unit_witness :
    3 ≤ triFloor.pointsToUse.length ∧
      ∃ n, triFloor.computeNormal none = some n ∧
        n = orientCorrect triFloor none (preNormal triFloor.pointsToUse) ∧
        n.magnitude = 1 ∧
        triFloor.pointsToUse =
          (if 3 ≤ triFloor.vertices_plus.length then triFloor.vertices_plus
            else triFloor.plane) ∧
        (triFloor.pointsToUse.length = 3 →
          preNormal triFloor.pointsToUse =
            ((triFloor.pointsToUse.getD 1 ⟨0, 0, 0⟩ -
                triFloor.pointsToUse.getD 0 ⟨0, 0, 0⟩).cross
              (triFloor.pointsToUse.getD 2 ⟨0, 0, 0⟩ -
                triFloor.pointsToUse.getD 0 ⟨0, 0, 0⟩)).normalize) ∧
        (4 ≤ triFloor.pointsToUse.length →
          preNormal triFloor.pointsToUse = (newellSum triFloor.pointsToUse).normalize) :=
  ⟨by simp [triFloor, Side.pointsToUse],
    compute_normal_structure_and_unit triFloor none
      (by simp [triFloor, Side.pointsToUse])⟩

/-! ### Claim C4: the extruded brush -/

/-- Claim C4.  On a base polygon of n ≥ 3 vertices,
`create_trigger_brush_simple` returns exactly n + 2 faces: the reversed
base, the base translated by `normal * height`, and one quad
`[base i, base (i+1 mod n), top (i+1 mod n), top i]` per edge; every face
has at least 3 vertices.  On fewer than 3 vertices it returns `None`. -/
theorem create_trigger_brush_structure (base : List Vertex) (normal : Vertex) (h : ℝ)
    (hn : 3 ≤ base.length) (hh : 0 < h) :
    (∃ faces, createTriggerBrushSimple base normal h = some faces ∧
      faces.length = base.length + 2 ∧
      faces.getD 0 [] = base.reverse ∧
      faces.getD 1 [] = base.map (fun v => v + normal.scale h) ∧
      (∀ i < base.length, faces.getD (i + 2) [] =
        [base.getD i ⟨0, 0, 0⟩, base.getD ((i + 1) % base.length) ⟨0, 0, 0⟩,
          (base.map (fun v => v + normal.scale h)).getD ((i + 1) % base.length) ⟨0, 0, 0⟩,
          (base.map (fun v => v + normal.scale h)).getD i ⟨0, 0, 0⟩]) ∧
      (∀ f ∈ faces, 3 ≤ f.length)) ∧
    (∀ base2 : List Vertex, base2.length < 3 →
      createTriggerBrushSimple base2 normal h = none) := by
  constructor
  · unfold createTriggerBrushSimple
    rw [if_neg (not_lt.mpr hn)]
    refine ⟨_, rfl, ?_, rfl, rfl, ?_, ?_⟩
    · simp
    · intro i hi
      rw [List.getD_cons_succ, List.getD_cons_succ,
        List.getD_eq_getElem _ _ (by simpa using hi), List.getElem_map,
        List.getElem_range]
    · intro f hf
      rcases List.mem_cons.mp hf with hf | hf
      · subst hf; simpa using hn
      · rcases List.mem_cons.mp hf with hf | hf
        · subst hf; simpa using hn
        · rcases List.mem_map.mp hf with ⟨i, _, rfl⟩
          simp
  · intro base2 hb2
    unfold createTriggerBrushSimple
    rw [if_pos hb2]

/-- Witness for claim C4 at a concrete triangle and height 5. -/
theorem create_trigger_brush_structure_witness :
    3 ≤ ([⟨0, 0, 0⟩, ⟨1, 0, 0⟩, ⟨0, 1, 0⟩] : List Vertex).length ∧ (0 : ℝ) < 5 ∧
      ∃ faces, createTriggerBrushSimple [⟨0, 0, 0⟩, ⟨1, 0, 0⟩, ⟨0, 1, 0⟩] ⟨0, 0, 1⟩ 5 =
          some faces ∧
        faces.length = 5 ∧ ∀ f ∈ faces, 3 ≤ f.length := by
  refine ⟨by simp, by norm_num, ?_⟩
  rcases (create_trigger_brush_structure [⟨0, 0, 0⟩, ⟨1, 0, 0⟩, ⟨0, 1, 0⟩] ⟨0, 0, 1⟩ 5
      (by simp) (by norm_num)).1 with ⟨faces, heq, hlen, _, _, _, hface⟩
  exact ⟨faces, heq, by simpa using hlen, hface⟩


/-! ### Claim C6: tolerance equality versus the rounding hash -/

theorem roundHalfEven_eval_low (x : ℝ) (n : ℤ) (h1 : (n : ℝ) ≤ x) (h2 : x < n + 1 / 2) :
    roundHalfEven x = n := by
  have hf : ⌊x⌋ = n := Int.floor_eq_iff.mpr ⟨h1, by linarith⟩
  have hfr : Int.fract x < 1 / 2 := by
    rw [Int.fract, hf]
    linarith
  unfold roundHalfEven
  rw [if_pos hfr, hf]

theorem roundHalfEven_eval_high (x : ℝ) (n : ℤ) (h1 : (n : ℝ) + 1 / 2 < x) (h2 : x < n + 1) :
    roundHalfEven x = n + 1 := by
  have hf : ⌊x⌋ = n := Int.floor_eq_iff.mpr ⟨by linarith, by linarith⟩
  have hfr : 1 / 2 < Int.fract x := by
    rw [Int.fract, hf]
    linarith
  unfold roundHalfEven
  rw [if_neg (by linarith), if_pos hfr, hf]

theorem pyRound3_eval_a : pyRound3 (0.0004 : ℝ) = 0 := by
  unfold pyRound3
  rw [show (0.0004 : ℝ) * 1000 = 0.4 by norm_num,
    roundHalfEven_eval_low 0.4 0 (by norm_num) (by norm_num)]
  norm_num

theorem pyRound3_eval_b : pyRound3 (0.0006 : ℝ) = 0.001 := by
  unfold pyRound3
  rw [show (0.0006 : ℝ) * 1000 = 0.6 by norm_num,
    roundHalfEven_eval_high 0.6 0 (by norm_num) (by norm_num)]
  norm_num

/-- Claim C6 counterexample.  The vertices (0.0004, 0, 0) and (0.0006, 0, 0)
are equal under the 0.001-per-axis tolerance of the vertex equality test,
but their x coordinates round to different third decimals (0.000 versus
0.001), so the rounding hash separates them: tolerance equality does not
imply hash equality, and such tolerance-equal vertices need not deduplicate
together in a hash-based set. -/
theorem tolerance_equal_but_hash_differs :
    vertexEq c6a c6b ∧ vertexHash c6a ≠ vertexHash c6b := by
  constructor
  · refine ⟨?_, ?_, ?_⟩ <;> rw [abs_sub_lt_iff] <;> constructor <;> norm_num [c6a, c6b]
  · intro h
    have hx : pyRound3 c6a.x = pyRound3 c6b.x := congrArg Prod.fst h
    rw [show c6a.x = (0.0004 : ℝ) from rfl, show c6b.x = (0.0006 : ℝ) from rfl,
      pyRound3_eval_a, pyRound3_eval_b] at hx
    norm_num at hx

/-- Claim C6 (amended).  The hash collides exactly on vertices whose
coordinates all round to the same third decimal; tolerance-equal vertices
whose coordinates straddle a rounding boundary (such as the counterexample
pair) hash apart. -/
theorem hash_collides_iff_same_rounding (a b : Vertex) :
    vertexHash a = vertexHash b ↔
      pyRound3 a.x = pyRound3 b.x ∧ pyRound3 a.y = pyRound3 b.y ∧
        pyRound3 a.z = pyRound3 b.z := by
  unfold vertexHash
  simp [Prod.ext_iff]

/-- Witness for the amended claim C6 at a concrete pair. -/
theorem hash_collides_iff_same_rounding_witness : vertexHash c6a = vertexHash c6a :=
  (hash_collides_iff_same_rounding c6a c6a).mpr ⟨rfl, rfl, rfl⟩

/-! ### Claim C9: surface classification -/

theorem normalize_eval (v : Vertex) (m : ℝ) (hm : v.magnitude = m) (h : 1e-10 ≤ m) :
    v.normalize = ⟨v.x / m, v.y / m, v.z / m⟩ := by
  unfold Vertex.normalize
  rw [hm, if_neg (not_lt.mpr h)]

theorem normalize_of_unit (v : Vertex) (hm : v.magnitude = 1) : v.normalize = v := by
  rw [normalize_eval v 1 hm (by norm_num)]
  cases v
  simp

theorem computeNormal_plane3 (p1 p2 p3 : Vertex) :
    Side.computeNormal ⟨[p1, p2, p3], []⟩ none =
      some (((p2 - p1).cross (p3 - p1)).normalize) := by
  unfold Side.computeNormal Side.pointsToUse preNormal rawNormalVec orientCorrect
  norm_num [List.getD]

theorem triFloor_normal : triFloor.computeNormal none = some ⟨0, 0, 1⟩ := by
  unfold triFloor
  rw [computeNormal_plane3]
  have hc : ((⟨1, 0, 0⟩ - ⟨0, 0, 0⟩ : Vertex).cross (⟨0, 1, 0⟩ - ⟨0, 0, 0⟩)) = ⟨0, 0, 1⟩ := by
    simp only [Vertex.sub_eval, Vertex.cross, Vertex.mk.injEq]
    norm_num
  rw [hc, normalize_of_unit _ (by unfold Vertex.magnitude; norm_num [Real.sqrt_one])]

theorem triCeiling_normal : triCeiling.computeNormal none = some ⟨0, 0, -1⟩ := by
  unfold triCeiling
  rw [computeNormal_plane3]
  have hc : ((⟨1, 0, 0⟩ - ⟨0, 1, 0⟩ : Vertex).cross (⟨0, 0, 0⟩ - ⟨0, 1, 0⟩)) = ⟨0, 0, -1⟩ := by
    simp only [Vertex.sub_eval, Vertex.cross, Vertex.mk.injEq]
    norm_num
  rw [hc, normalize_of_unit _ ?hm]
  case hm =>
    unfold Vertex.magnitude
    norm_num [Real.sqrt_one]

theorem triWall_normal : triWall.computeNormal none = some ⟨1, 0, 0⟩ := by
  unfold triWall
  rw [computeNormal_plane3]
  have hc : ((⟨0, 1, 0⟩ - ⟨0, 0, 0⟩ : Vertex).cross (⟨0, 0, 1⟩ - ⟨0, 0, 0⟩)) = ⟨1, 0, 0⟩ := by
    simp only [Vertex.sub_eval, Vertex.cross, Vertex.mk.injEq]
    norm_num
  rw [hc, normalize_of_unit _ (by unfold Vertex.magnitude; norm_num [Real.sqrt_one])]

theorem triRamp_normal :
    triRamp.computeNormal none = some ⟨Real.sqrt 3 / 2, 0, 1 / 2⟩ := by
  unfold triRamp
  rw [computeNormal_plane3]
  have hc : ((⟨0, 1, 0⟩ - ⟨0, 0, 0⟩ : Vertex).cross
      (⟨-1, 0, Real.sqrt 3⟩ - ⟨0, 0, 0⟩)) = ⟨Real.sqrt 3, 0, 1⟩ := by
    simp only [Vertex.sub_eval, Vertex.cross, Vertex.mk.injEq]
    norm_num
  rw [hc, normalize_eval _ 2 ?hm (by norm_num)]
  · norm_num
  case hm =>
    unfold Vertex.magnitude
    have h3 : Real.sqrt 3 ^ 2 = 3 := Real.sq_sqrt (by norm_num)
    rw [show ((⟨Real.sqrt 3, 0, 1⟩ : Vertex).x ^ 2 + (⟨Real.sqrt 3, 0, 1⟩ : Vertex).y ^ 2 +
        (⟨Real.sqrt 3, 0, 1⟩ : Vertex).z ^ 2) = Real.sqrt 3 ^ 2 + 1 by dsimp only; ring, h3]
    rw [show (3 : ℝ) + 1 = 2 ^ 2 by norm_num]
    exact Real.sqrt_sq (by norm_num)

theorem triSteep_normal :
    triSteep.computeNormal none = some ⟨3 / 5, 0, 4 / 5⟩ := by
  unfold triSteep
  rw [computeNormal_plane3]
  have hc : ((⟨0, 1, 0⟩ - ⟨0, 0, 0⟩ : Vertex).cross
      (⟨-4, 0, 3⟩ - ⟨0, 0, 0⟩)) = ⟨3, 0, 4⟩ := by
    simp only [Vertex.sub_eval, Vertex.cross, Vertex.mk.injEq]
    norm_num
  rw [hc, normalize_eval _ 5 ?hm (by norm_num)]
  · norm_num
  case hm =>
    unfold Vertex.magnitude
    rw [show ((⟨3, 0, 4⟩ : Vertex).x ^ 2 + (⟨3, 0, 4⟩ : Vertex).y ^ 2 +
        (⟨3, 0, 4⟩ : Vertex).z ^ 2) = (5 : ℝ) ^ 2 by dsimp only; norm_num]
    exact Real.sqrt_sq (by norm_num)

/-- Claim C9.  A face with a computed normal is classified by the absolute
value of the z component of the normal in the stated threshold order: wall
below 0.01, floor or ceiling from 0.985, steep slopes from 0.7, ramps from
0.3, gentle slopes below 0.3, with the ceiling-side name whenever the z
component is not positive; five concrete boundary faces classify as floor,
ceiling, wall, ramp and steep slope respectively. -/
theorem surface_type_classification :
    (∀ (s : Side) (parent : Option Solid) (n : Vertex),
        s.computeNormal parent = some n →
        s.getSurfaceType parent =
          (if |n.z| < 0.01 then "wall"
            else if 0.985 ≤ |n.z| then if 0 < n.z then "floor" else "ceiling"
            else if 0.7 ≤ |n.z| then
              if 0 < n.z then "steep_slope" else "steep_ceiling_slope"
            else if 0.3 ≤ |n.z| then if 0 < n.z then "ramp" else "ceiling_ramp"
            else if 0 < n.z then "gentle_slope" else "gentle_ceiling_slope")) ∧
      triFloor.getSurfaceType none = "floor" ∧
      triCeiling.getSurfaceType none = "ceiling" ∧
      triWall.getSurfaceType none = "wall" ∧
      triRamp.getSurfaceType none = "ramp" ∧
      triSteep.getSurfaceType none = "steep_slope" := by
  have hgen : ∀ (s : Side) (parent : Option Solid) (n : Vertex),
      s.computeNormal parent = some n →
      s.getSurfaceType parent =
        (if |n.z| < 0.01 then "wall"
          else if 0.985 ≤ |n.z| then if 0 < n.z then "floor" else "ceiling"
          else if 0.7 ≤ |n.z| then
            if 0 < n.z then "steep_slope" else "steep_ceiling_slope"
          else if 0.3 ≤ |n.z| then if 0 < n.z then "ramp" else "ceiling_ramp"
          else if 0 < n.z then "gentle_slope" else "gentle_ceiling_slope") := by
    intro s parent n h
    unfold Side.getSurfaceType
    rw [h]
  refine ⟨hgen, ?_, ?_, ?_, ?_, ?_⟩
  · rw [hgen triFloor none _ triFloor_normal]
    dsimp only
    rw [abs_one, if_neg (by norm_num), if_pos (by norm_num), if_pos (by norm_num)]
  · rw [hgen triCeiling none _ triCeiling_normal]
    dsimp only
    rw [show |(-1 : ℝ)| = 1 by rw [abs_neg, abs_one],
      if_neg (by norm_num), if_pos (by norm_num), if_neg (by norm_num)]
  · rw [hgen triWall none _ triWall_normal]
    dsimp only
    rw [abs_zero, if_pos (by norm_num)]
  · rw [hgen triRamp none _ triRamp_normal]
    dsimp only
    rw [show |(1 : ℝ) / 2| = 1 / 2 from abs_of_pos (by norm_num),
      if_neg (by norm_num), if_neg (by norm_num), if_neg (by norm_num),
      if_pos (by norm_num), if_pos (by norm_num)]
  · rw [hgen triSteep none _ triSteep_normal]
    dsimp only
    rw [show |(4 : ℝ) / 5| = 4 / 5 from abs_of_pos (by norm_num),
      if_neg (by norm_num), if_neg (by norm_num), if_pos (by norm_num),
      if_pos (by norm_num)]

/-- Witness for claim C9: the general classification rule applied at the
concrete horizontal triangle, whose normal is (0, 0, 1). -/
theorem surface_type_classification_witness :
    triFloor.computeNormal none = some ⟨0, 0, 1⟩ ∧
      triFloor.getSurfaceType none =
        (if |(⟨0, 0, 1⟩ : Vertex).z| < 0.01 then "wall"
          else if 0.985 ≤ |(⟨0, 0, 1⟩ : Vertex).z| then
            if 0 < (⟨0, 0, 1⟩ : Vertex).z then "floor" else "ceiling"
          else if 0.7 ≤ |(⟨0, 0, 1⟩ : Vertex).z| then
            if 0 < (⟨0, 0, 1⟩ : Vertex).z then "steep_slope" else "steep_ceiling_slope"
          else if 0.3 ≤ |(⟨0, 0, 1⟩ : Vertex).z| then
            if 0 < (⟨0, 0, 1⟩ : Vertex).z then "ramp" else "ceiling_ramp"
          else if 0 < (⟨0, 0, 1⟩ : Vertex).z then "gentle_slope"
          else "gentle_ceiling_slope") :=
  ⟨triFloor_normal,
    surface_type_classification.1 triFloor none ⟨0, 0, 1⟩ triFloor_normal⟩


/-! ### Claim C10: a short explicit vertex loop blocks the trigger -/

/-- Claim C10.  When `vertices_plus` is nonempty but shorter than 3 while
the plane has its 3 points, `get_vertices` returns the short explicit loop
rather than the plane points, so `create_trigger_entity` bails out with no
entity and an unchanged face-id counter, even though `compute_normal` on
the very same face succeeds by falling back to the plane points. -/
theorem short_vertices_plus_blocks_trigger (vp plane : List Vertex)
    (h1 : vp ≠ []) (h2 : vp.length < 3) (h3 : plane.length = 3) :
    Side.getVertices ⟨plane, vp⟩ = vp ∧
      (∀ solid_id face_id_start parent height,
        createTriggerEntity solid_id face_id_start ⟨plane, vp⟩ parent height =
          (none, face_id_start)) ∧
      ∀ parent, (Side.computeNormal ⟨plane, vp⟩ parent).isSome := by
  have hgv : Side.getVertices ⟨plane, vp⟩ = vp := by
    cases vp with
    | nil => exact absurd rfl h1
    | cons v rest => rfl
  refine ⟨hgv, ?_, ?_⟩
  · intro solid_id face_id_start parent height
    simp only [createTriggerEntity, hgv]
    rw [if_pos h2]
  · intro parent
    have hnle : ¬ 3 ≤ vp.length := by omega
    have hpts : Side.pointsToUse ⟨plane, vp⟩ = plane := by
      unfold Side.pointsToUse
      dsimp only
      rw [if_neg hnle]
    unfold Side.computeNormal
    rw [hpts, if_neg (by omega : ¬ plane.length < 3)]
    rfl

/-- Witness for claim C10 at a concrete face: a 1-vertex explicit loop over
a full 3-point plane. -/
theorem short_vertices_plus_blocks_trigger_witness :
    c10Side.getVertices = [⟨0, 0, 0⟩] ∧
      createTriggerEntity 0 0 c10Side none 8 = (none, 0) ∧
      (c10Side.computeNormal none).isSome := by
  have h := short_vertices_plus_blocks_trigger [⟨0, 0, 0⟩]
    [⟨0, 0, 0⟩, ⟨1, 0, 0⟩, ⟨0, 1, 0⟩] (by simp) (by simp) rfl
  exact ⟨h.1, h.2.1 0 0 none 8, h.2.2 none⟩

/-! ### Claim C8: totality of the numeric coercion -/

/-- Claim C8 counterexample.  `num` on the Python int 10 to the power 400
takes the isinstance fast path, which converts with `float(value)` outside
the try block; converting an int beyond the double range raises
OverflowError, so the exception escapes to the caller instead of the
claimed never-raise default. -/
theorem num_raises_on_huge_int : num (PyVal.i (10 ^ 400)) = .error () := by
  have hcond : floatOverflowBound ≤ |((10 ^ 400 : ℤ) : ℚ)| := by
    rw [show ((10 ^ 400 : ℤ) : ℚ) = 10 ^ 400 by push_cast; ring,
      abs_of_nonneg (by positivity)]
    unfold floatOverflowBound
    norm_num
  have hb : floatOfInt (10 ^ 400) = none := by
    unfold floatOfInt
    rw [if_pos hcond]
  unfold num
  dsimp only
  rw [hb]

/-- Claim C8 (amended).  On string and float inputs `num` never raises:
every string yields some value and unparseable text such as abc yields the
0.0 default; but the result need not be finite, because an already-float
value is passed through unchanged, so an infinite (or NaN) float input
comes back as is.  An int within the double range converts exactly; only
an int beyond that range raises, as the counterexample shows. -/
theorem num_string_total_and_int_overflow :
    (∀ cs, ∃ v, num (PyVal.s cs) = .ok v) ∧
      num (PyVal.s ['a', 'b', 'c']) = .ok (.finite 0) ∧
      (∀ v, num (PyVal.f v) = .ok v) ∧
      (num (PyVal.f .inf) = .ok .inf ∧ ¬ PyFloat.isFinite .inf) ∧
      ∀ n : ℤ, |(n : ℚ)| < floatOverflowBound → num (PyVal.i n) = .ok (.finite n) := by
  refine ⟨?_, ?_, fun v => rfl, ⟨rfl, fun h => h⟩, ?_⟩
  · intro cs
    unfold num
    dsimp only
    by_cases h0 : cs = []
    · rw [if_pos h0]
      exact ⟨_, rfl⟩
    · rw [if_neg h0]
      by_cases hc :
        (!(pyStrip cs).contains '.' && !(List.map Char.toLower (pyStrip cs)).contains 'e') = true
      · rw [if_pos hc]
        cases hi : pyIntOfChars (pyStrip cs) with
        | none => exact ⟨_, rfl⟩
        | some n =>
          dsimp only
          cases hf : floatOfInt n with
          | none => exact ⟨_, rfl⟩
          | some v => exact ⟨_, rfl⟩
      · rw [if_neg hc]
        cases hf : pyFloatOfChars (pyStrip cs) with
        | none => exact ⟨_, rfl⟩
        | some v => exact ⟨_, rfl⟩
  · rfl
  · intro n h
    have hb : floatOfInt n = some (.finite n) := by
      unfold floatOfInt
      rw [if_neg (not_le.mpr h)]
    unfold num
    dsimp only
    rw [hb]

/-- Witness for the amended claim C8: the in-range int conjunct applied at
the concrete int 3. -/
theorem num_string_total_witness :
    |((3 : ℤ) : ℚ)| < floatOverflowBound ∧ num (PyVal.i 3) = .ok (.finite 3) := by
  have h3 : |((3 : ℤ) : ℚ)| < floatOverflowBound := by
    rw [show ((3 : ℤ) : ℚ) = 3 by push_cast; ring, abs_of_nonneg (by norm_num)]
    unfold floatOverflowBound
    norm_num
  exact ⟨h3, num_string_total_and_int_overflow.2.2.2.2 3 h3⟩


/-! ### Claim C7: winding and the orientation correction -/

theorem scale_neg_neg (v : Vertex) : (v.scale (-1)).scale (-1) = v := by
  cases v with
  | mk x y z =>
    simp only [Vertex.scale, Vertex.mk.injEq]
    refine ⟨by ring, by ring, by ring⟩

theorem dot_scale_neg (v w : Vertex) : (v.scale (-1)).dot w = -(v.dot w) := by
  cases v with
  | mk x y z =>
    cases w with
    | mk a b c =>
      simp only [Vertex.scale, Vertex.dot]
      ring

theorem sum_range_cycle (n : ℕ) (f : ℕ → ℝ) :
    ∑ i in Finset.range n, f ((i + 1) % n) = ∑ i in Finset.range n, f i := by
  cases n with
  | zero => simp
  | succ m =>
    rw [Finset.sum_range_succ, Finset.sum_range_succ' f m]
    have h1 : ∀ i ∈ Finset.range m, f ((i + 1) % (m + 1)) = f (i + 1) := by
      intro i hi
      rw [Finset.mem_range] at hi
      rw [Nat.mod_eq_of_lt (by omega)]
    rw [Finset.sum_congr rfl h1, Nat.mod_self]

theorem getD_reverse (l : List Vertex) (i : ℕ) (h : i < l.length) :
    l.reverse.getD i ⟨0, 0, 0⟩ = l.getD (l.length - 1 - i) ⟨0, 0, 0⟩ := by
  rw [List.getD_eq_getElem?_getD, List.getD_eq_getElem?_getD, List.getElem?_reverse h]

theorem foldl_add_range (f : ℕ → Vertex) (n : ℕ) :
    (List.range n).foldl (fun acc i => acc + f i) (⟨0, 0, 0⟩ : Vertex) =
      ∑ i in Finset.range n, f i := by
  induction n with
  | zero => rfl
  | succ m ih =>
    rw [List.range_succ, List.foldl_append, ih, Finset.sum_range_succ]
    rfl

theorem sum_proj (p : Vertex → ℝ) (hp0 : p ⟨0, 0, 0⟩ = 0)
    (hpadd : ∀ a b : Vertex, p (a + b) = p a + p b) (f : ℕ → Vertex) (n : ℕ) :
    p (∑ i in Finset.range n, f i) = ∑ i in Finset.range n, p (f i) := by
  induction n with
  | zero => simpa using hp0
  | succ m ih => rw [Finset.sum_range_succ, Finset.sum_range_succ, hpadd, ih]

theorem sum_cyclic_reverse (g : Vertex → Vertex → ℝ)
    (hg : ∀ a b, g a b = -(g b a)) (l : List Vertex) :
    (∑ i in Finset.range l.length,
        g (l.reverse.getD i ⟨0, 0, 0⟩) (l.reverse.getD ((i + 1) % l.length) ⟨0, 0, 0⟩)) =
      -∑ i in Finset.range l.length,
          g (l.getD i ⟨0, 0, 0⟩) (l.getD ((i + 1) % l.length) ⟨0, 0, 0⟩) := by
  rcases Nat.eq_zero_or_pos l.length with h0 | hpos
  · rw [h0]
    simp
  · have hA : ∀ i ∈ Finset.range l.length,
        g (l.reverse.getD i ⟨0, 0, 0⟩) (l.reverse.getD ((i + 1) % l.length) ⟨0, 0, 0⟩) =
          -(g (l.getD (l.length - 1 - (i + 1) % l.length) ⟨0, 0, 0⟩)
              (l.getD (l.length - 1 - i) ⟨0, 0, 0⟩)) := by
      intro i hi
      rw [Finset.mem_range] at hi
      rw [getD_reverse l i hi, getD_reverse l ((i + 1) % l.length) (Nat.mod_lt _ hpos)]
      exact hg _ _
    rw [Finset.sum_congr rfl hA, Finset.sum_neg_distrib]
    congr 1
    have hrefl := (Finset.sum_range_reflect
      (fun i => g (l.getD (l.length - 1 - (i + 1) % l.length) ⟨0, 0, 0⟩)
        (l.getD (l.length - 1 - i) ⟨0, 0, 0⟩)) l.length).symm
    rw [hrefl]
    have hFG : ∀ i ∈ Finset.range l.length,
        g (l.getD (l.length - 1 - ((l.length - 1 - i) + 1) % l.length) ⟨0, 0, 0⟩)
            (l.getD (l.length - 1 - (l.length - 1 - i)) ⟨0, 0, 0⟩) =
          g (l.getD ((i + l.length - 1) % l.length) ⟨0, 0, 0⟩) (l.getD i ⟨0, 0, 0⟩) := by
      intro i hi
      rw [Finset.mem_range] at hi
      have e2 : l.length - 1 - (l.length - 1 - i) = i := by omega
      have e1 : l.length - 1 - ((l.length - 1 - i) + 1) % l.length =
          (i + l.length - 1) % l.length := by
        rcases Nat.eq_zero_or_pos i with rfl | hip
        · rw [show l.length - 1 - 0 + 1 = l.length by omega, Nat.mod_self,
            show 0 + l.length - 1 = l.length - 1 by omega,
            Nat.mod_eq_of_lt (show l.length - 1 < l.length by omega)]
          omega
        · rw [show l.length - 1 - i + 1 = l.length - i by omega,
            Nat.mod_eq_of_lt (show l.length - i < l.length by omega),
            show i + l.length - 1 = (i - 1) + l.length by omega,
            Nat.add_mod_right,
            Nat.mod_eq_of_lt (show i - 1 < l.length by omega)]
          omega
      rw [e1, e2]
    rw [Finset.sum_congr rfl hFG]
    have hcyc := (sum_range_cycle l.length
      (fun i => g (l.getD ((i + l.length - 1) % l.length) ⟨0, 0, 0⟩)
        (l.getD i ⟨0, 0, 0⟩))).symm
    rw [hcyc]
    refine Finset.sum_congr rfl ?_
    intro i hi
    rw [Finset.mem_range] at hi
    have e3 : ((i + 1) % l.length + l.length - 1) % l.length = i := by
      rcases Nat.lt_or_ge i (l.length - 1) with hlt | hge
      · rw [Nat.mod_eq_of_lt (show i + 1 < l.length by omega),
          show i + 1 + l.length - 1 = i + l.length by omega,
          Nat.add_mod_right,
          Nat.mod_eq_of_lt (show i < l.length by omega)]
      · have hieq : i = l.length - 1 := by omega
        rw [hieq, show l.length - 1 + 1 = l.length by omega, Nat.mod_self,
          show 0 + l.length - 1 = l.length - 1 by omega,
          Nat.mod_eq_of_lt (show l.length - 1 < l.length by omega)]
    rw [e3]

theorem newellSum_reverse (l : List Vertex) :
    newellSum l.reverse = (newellSum l).scale (-1) := by
  unfold newellSum
  rw [List.length_reverse]
  rw [foldl_add_range (fun i => newellTerm (l.reverse.getD i ⟨0, 0, 0⟩)
      (l.reverse.getD ((i + 1) % l.length) ⟨0, 0, 0⟩)) l.length,
    foldl_add_range (fun i => newellTerm (l.getD i ⟨0, 0, 0⟩)
      (l.getD ((i + 1) % l.length) ⟨0, 0, 0⟩)) l.length]
  have hcomp : ∀ (p : Vertex → ℝ), p ⟨0, 0, 0⟩ = 0 →
      (∀ a b : Vertex, p (a + b) = p a + p b) →
      (∀ a b : Vertex, p (newellTerm a b) = -(p (newellTerm b a))) →
      p (∑ i in Finset.range l.length, newellTerm (l.reverse.getD i ⟨0, 0, 0⟩)
          (l.reverse.getD ((i + 1) % l.length) ⟨0, 0, 0⟩)) =
        -(p (∑ i in Finset.range l.length, newellTerm (l.getD i ⟨0, 0, 0⟩)
            (l.getD ((i + 1) % l.length) ⟨0, 0, 0⟩))) := by
    intro p hp0 hpadd hanti
    rw [sum_proj p hp0 hpadd, sum_proj p hp0 hpadd]
    exact sum_cyclic_reverse (fun a b => p (newellTerm a b)) hanti l
  have hx := hcomp (fun v => v.x) rfl (fun a b => rfl)
    (fun a b => by simp only [newellTerm]; ring)
  have hy := hcomp (fun v => v.y) rfl (fun a b => rfl)
    (fun a b => by simp only [newellTerm]; ring)
  have hz := hcomp (fun v => v.z) rfl (fun a b => rfl)
    (fun a b => by simp only [newellTerm]; ring)
  have hS : ∀ u w : Vertex, u.x = -w.x → u.y = -w.y → u.z = -w.z →
      u = w.scale (-1) := by
    intro u w h1 h2 h3
    cases u with
    | mk ux uy uz =>
      cases w with
      | mk wx wy wz =>
        simp only [Vertex.scale, Vertex.mk.injEq]
        dsimp only at h1 h2 h3
        refine ⟨by linarith, by linarith, by linarith⟩
  exact hS _ _ hx hy hz

theorem rawNormalVec_three (p1 p2 p3 : Vertex) :
    rawNormalVec [p1, p2, p3] = (p2 - p1).cross (p3 - p1) := by
  unfold rawNormalVec
  norm_num [List.getD]

theorem rawNormalVec_reverse (pts : List Vertex) :
    rawNormalVec pts.reverse = (rawNormalVec pts).scale (-1) := by
  by_cases h3 : pts.length = 3
  · obtain ⟨a, b, c, rfl⟩ := List.length_eq_three.mp h3
    rw [show ([a, b, c] : List Vertex).reverse = [c, b, a] from rfl,
      rawNormalVec_three, rawNormalVec_three]
    cases a with
    | mk a1 a2 a3 =>
      cases b with
      | mk b1 b2 b3 =>
        cases c with
        | mk c1 c2 c3 =>
          simp only [Vertex.sub_eval, Vertex.cross, Vertex.scale, Vertex.mk.injEq]
          refine ⟨by ring, by ring, by ring⟩
  · unfold rawNormalVec
    rw [List.length_reverse, if_neg h3, if_neg h3]
    exact newellSum_reverse pts

theorem normalize_scale_neg (v : Vertex) (hm : 1e-10 ≤ v.magnitude) :
    (v.scale (-1)).normalize = v.normalize.scale (-1) := by
  unfold Vertex.normalize
  rw [magnitude_scale_neg v, if_neg (not_lt.mpr hm), if_neg (not_lt.mpr hm)]
  cases v with
  | mk x y z =>
    simp only [Vertex.scale, Vertex.mk.injEq]
    refine ⟨by ring, by ring, by ring⟩

theorem preNormal_reverse (pts : List Vertex)
    (hm : 1e-10 ≤ (rawNormalVec pts).magnitude) :
    preNormal pts.reverse = (preNormal pts).scale (-1) := by
  unfold preNormal
  rw [rawNormalVec_reverse]
  exact normalize_scale_neg _ hm

theorem getVertices_of_ne_nil (s : Side) (h : s.vertices_plus ≠ []) :
    s.getVertices = s.vertices_plus := by
  unfold Side.getVertices
  cases hv : s.vertices_plus with
  | nil => exact absurd hv h
  | cons v rest => rfl

theorem foldl_add_eq_sum (l : List Vertex) :
    l.foldl (· + ·) (⟨0, 0, 0⟩ : Vertex) = l.sum := by
  rw [List.sum_eq_foldl]
  rfl

theorem getFaceCenter_reverse (s : Side) (h : s.vertices_plus ≠ []) :
    (reverseSide s).getFaceCenter = s.getFaceCenter := by
  have h2 : (reverseSide s).vertices_plus ≠ [] := by
    simp only [reverseSide]
    simpa using h
  have hg1 : s.getVertices = s.vertices_plus := getVertices_of_ne_nil s h
  have hg2 : (reverseSide s).getVertices = s.vertices_plus.reverse :=
    getVertices_of_ne_nil _ h2
  unfold Side.getFaceCenter
  rw [hg1, hg2]
  cases hv : s.vertices_plus with
  | nil => exact absurd hv h
  | cons v rest =>
    cases hr : (v :: rest).reverse with
    | nil => simp at hr
    | cons w ws =>
      dsimp only
      rw [← hr]
      rw [foldl_add_eq_sum, foldl_add_eq_sum, List.sum_reverse, List.length_reverse]

/-- Claim C7 (amended).  For a face whose explicit vertex loop has at least
3 points, a non-degenerate accumulated normal, and computable face and
solid centers, the orientation-corrected normal is winding-independent
whenever the absolute dot product of the pre-correction normal with the
solid-center-to-face-center vector exceeds the 0.1 threshold; inside that
band the correction cannot compensate the sign flip of the raw normal, as
the counterexample shows. -/
theorem orientation_correction_winding_cond (s : Side) (sol : Solid)
    (hvp : 3 ≤ s.vertices_plus.length)
    (hmag : 1e-10 ≤ (rawNormalVec s.pointsToUse).magnitude)
    (fc sc : Vertex) (hfc : s.getFaceCenter = some fc)
    (hsc : sol.getApproximateCenter = some sc)
    (hd : 0.1 < |(preNormal s.pointsToUse).dot (fc - sc)|) :
    Side.computeNormal (reverseSide s) (some sol) = Side.computeNormal s (some sol) := by
  have hpts : s.pointsToUse = s.vertices_plus := by
    unfold Side.pointsToUse
    rw [if_pos hvp]
  have hptsr : (reverseSide s).pointsToUse = s.vertices_plus.reverse := by
    unfold Side.pointsToUse reverseSide
    dsimp only
    rw [if_pos (by rw [List.length_reverse]; exact hvp)]
  have hne : s.vertices_plus ≠ [] := by
    intro hemp
    rw [hemp] at hvp
    simp at hvp
  have hfcr : (reverseSide s).getFaceCenter = some fc := by
    rw [getFaceCenter_reverse s hne, hfc]
  rw [hpts] at hmag hd
  simp only [Side.computeNormal]
  rw [hpts, hptsr, List.length_reverse]
  rw [if_neg (by omega), if_neg (by omega)]
  have hpre : preNormal s.vertices_plus.reverse = (preNormal s.vertices_plus).scale (-1) :=
    preNormal_reverse _ hmag
  rw [hpre]
  unfold orientCorrect
  dsimp only
  rw [hfcr, hfc, hsc]
  dsimp only
  rw [dot_scale_neg]
  rcases lt_abs.mp hd with hpos | hneg
  · rw [if_pos (by linarith), if_neg (by linarith), scale_neg_neg]
  · rw [if_neg (by linarith), if_pos (by linarith)]

theorem getFaceCenter_vplus3 (p1 p2 p3 : Vertex) (pl : List Vertex) :
    Side.getFaceCenter ⟨pl, [p1, p2, p3]⟩ =
      some ((((⟨0, 0, 0⟩ : Vertex) + p1 + p2 + p3)).scale (1 / 3)) := by
  unfold Side.getFaceCenter
  rw [show Side.getVertices ⟨pl, [p1, p2, p3]⟩ = [p1, p2, p3] from rfl]
  dsimp only [List.foldl]
  norm_num

theorem computeNormal_vplus3 (p1 p2 p3 : Vertex) (pl : List Vertex)
    (parent : Option Solid) :
    Side.computeNormal ⟨pl, [p1, p2, p3]⟩ parent =
      some (orientCorrect ⟨pl, [p1, p2, p3]⟩ parent
        (((p2 - p1).cross (p3 - p1)).normalize)) := by
  unfold Side.computeNormal Side.pointsToUse preNormal rawNormalVec
  norm_num [List.getD]

theorem c7_face_center : c7Side.getFaceCenter = some ⟨1 / 3, 1 / 3, 0⟩ := by
  rw [show c7Side = (⟨[], [⟨0, 0, 0⟩, ⟨1, 0, 0⟩, ⟨0, 1, 0⟩]⟩ : Side) from rfl,
    getFaceCenter_vplus3]
  simp only [Vertex.add_eval, Vertex.scale, Option.some.injEq, Vertex.mk.injEq]
  norm_num

theorem c7_solid_center :
    Solid.getApproximateCenter ⟨[c7Side]⟩ = some ⟨1 / 3, 1 / 3, 0⟩ := by
  unfold Solid.getApproximateCenter
  rw [show ((⟨[c7Side]⟩ : Solid).sides.map Side.getVertices).flatten =
      [(⟨0, 0, 0⟩ : Vertex), ⟨1, 0, 0⟩, ⟨0, 1, 0⟩] from rfl]
  dsimp only [List.foldl]
  simp only [Vertex.add_eval, Vertex.scale, Option.some.injEq, Vertex.mk.injEq]
  norm_num

/-- Claim C7 counterexample.  A triangular face that is the only face of
its solid: the face center and the solid center coincide, the correction
dot product is 0 (inside the threshold band, so no flip either way), and
reversing the winding with the same parent flips the computed normal from
(0, 0, 1) to (0, 0, -1) — far outside the 0.001 tolerance, so the
orientation correction is not winding-independent. -/
theorem orientation_correction_winding_dependent :
    Side.computeNormal c7Side (some ⟨[c7Side]⟩) = some ⟨0, 0, 1⟩ ∧
      Side.computeNormal (reverseSide c7Side) (some ⟨[c7Side]⟩) = some ⟨0, 0, -1⟩ ∧
      ¬ vertexEq ⟨0, 0, 1⟩ ⟨0, 0, -1⟩ := by
  have hn1 : ((⟨1, 0, 0⟩ - ⟨0, 0, 0⟩ : Vertex).cross (⟨0, 1, 0⟩ - ⟨0, 0, 0⟩)) = ⟨0, 0, 1⟩ := by
    simp only [Vertex.sub_eval, Vertex.cross, Vertex.mk.injEq]
    norm_num
  have hn2 : ((⟨1, 0, 0⟩ - ⟨0, 1, 0⟩ : Vertex).cross (⟨0, 0, 0⟩ - ⟨0, 1, 0⟩)) = ⟨0, 0, -1⟩ := by
    simp only [Vertex.sub_eval, Vertex.cross, Vertex.mk.injEq]
    norm_num
  have hu1 : ((⟨0, 0, 1⟩ : Vertex)).magnitude = 1 := by
    unfold Vertex.magnitude
    norm_num [Real.sqrt_one]
  have hu2 : ((⟨0, 0, -1⟩ : Vertex)).magnitude = 1 := by
    unfold Vertex.magnitude
    norm_num [Real.sqrt_one]
  refine ⟨?_, ?_, ?_⟩
  · rw [show c7Side = (⟨[], [⟨0, 0, 0⟩, ⟨1, 0, 0⟩, ⟨0, 1, 0⟩]⟩ : Side) from rfl,
      computeNormal_vplus3, hn1, normalize_of_unit _ hu1]
    unfold orientCorrect
    dsimp only
    rw [show Side.getFaceCenter ⟨[], [⟨0, 0, 0⟩, ⟨1, 0, 0⟩, ⟨0, 1, 0⟩]⟩ =
        some ⟨1 / 3, 1 / 3, 0⟩ from c7_face_center,
      show Solid.getApproximateCenter ⟨[⟨[], [⟨0, 0, 0⟩, ⟨1, 0, 0⟩, ⟨0, 1, 0⟩]⟩]⟩ =
        some ⟨1 / 3, 1 / 3, 0⟩ from c7_solid_center]
    dsimp only
    rw [if_neg ?hd1]
    case hd1 =>
      simp only [Vertex.sub_eval, Vertex.dot]
      norm_num
  · rw [show reverseSide c7Side = (⟨[], [⟨0, 1, 0⟩, ⟨1, 0, 0⟩, ⟨0, 0, 0⟩]⟩ : Side) from rfl,
      computeNormal_vplus3, hn2, normalize_of_unit _ hu2]
    unfold orientCorrect
    dsimp only
    rw [show Side.getFaceCenter ⟨[], [⟨0, 1, 0⟩, ⟨1, 0, 0⟩, ⟨0, 0, 0⟩]⟩ =
        some ⟨1 / 3, 1 / 3, 0⟩ from ?fc2,
      show Solid.getApproximateCenter ⟨[c7Side]⟩ = some ⟨1 / 3, 1 / 3, 0⟩ from
        c7_solid_center]
    case fc2 =>
      rw [getFaceCenter_vplus3]
      simp only [Vertex.add_eval, Vertex.scale, Option.some.injEq, Vertex.mk.injEq]
      norm_num
    dsimp only
    rw [if_neg ?hd2]
    case hd2 =>
      simp only [Vertex.sub_eval, Vertex.dot]
      norm_num
  · intro hcontra
    have hz := hcontra.2.2
    dsimp only at hz
    rw [show (1 : ℝ) - -1 = 2 by norm_num] at hz
    rw [abs_of_pos (by norm_num)] at hz
    norm_num at hz

theorem c7Wit_face_center : c7WitSide.getFaceCenter = some ⟨4 / 3, 4 / 3, 0⟩ := by
  rw [show c7WitSide = (⟨[], [⟨0, 0, 0⟩, ⟨4, 0, 0⟩, ⟨0, 4, 0⟩]⟩ : Side) from rfl,
    getFaceCenter_vplus3]
  simp only [Vertex.add_eval, Vertex.scale, Option.some.injEq, Vertex.mk.injEq]
  norm_num

theorem c7Wit_solid_center :
    c7WitSolid.getApproximateCenter = some ⟨4 / 3, 4 / 3, -3⟩ := by
  unfold Solid.getApproximateCenter
  rw [show (c7WitSolid.sides.map Side.getVertices).flatten =
      [(⟨0, 0, 0⟩ : Vertex), ⟨4, 0, 0⟩, ⟨0, 4, 0⟩,
        ⟨0, 0, -6⟩, ⟨4, 0, -6⟩, ⟨0, 4, -6⟩] from rfl]
  dsimp only [List.foldl]
  simp only [Vertex.add_eval, Vertex.scale, Option.some.injEq, Vertex.mk.injEq]
  norm_num

theorem c7Wit_raw : rawNormalVec c7WitSide.pointsToUse = ⟨0, 0, 16⟩ := by
  rw [show c7WitSide.pointsToUse = [⟨0, 0, 0⟩, ⟨4, 0, 0⟩, ⟨0, 4, 0⟩] from rfl,
    rawNormalVec_three]
  simp only [Vertex.sub_eval, Vertex.cross, Vertex.mk.injEq]
  norm_num

theorem c7Wit_raw_magnitude : (rawNormalVec c7WitSide.pointsToUse).magnitude = 16 := by
  rw [c7Wit_raw]
  unfold Vertex.magnitude
  rw [show ((⟨0, 0, 16⟩ : Vertex)).x ^ 2 + ((⟨0, 0, 16⟩ : Vertex)).y ^ 2 +
      ((⟨0, 0, 16⟩ : Vertex)).z ^ 2 = (16 : ℝ) ^ 2 by norm_num]
  exact Real.sqrt_sq (by norm_num)

theorem c7Wit_preNormal : preNormal c7WitSide.pointsToUse = ⟨0, 0, 1⟩ := by
  unfold preNormal
  rw [c7Wit_raw, normalize_eval _ 16 ?hm (by norm_num)]
  · simp only [Vertex.mk.injEq]
    norm_num
  case hm =>
    have h := c7Wit_raw_magnitude
    rw [c7Wit_raw] at h
    exact h

/-- Witness for the amended claim C7 at a concrete face of a two-face
solid whose center sits well below the face, so the correction dot product
is 3, safely beyond the threshold. -/
theorem orientation_correction_winding_cond_witness :
    Side.computeNormal (reverseSide c7WitSide) (some c7WitSolid) =
      Side.computeNormal c7WitSide (some c7WitSolid) := by
  refine orientation_correction_winding_cond c7WitSide c7WitSolid ?_ ?_
    ⟨4 / 3, 4 / 3, 0⟩ ⟨4 / 3, 4 / 3, -3⟩ c7Wit_face_center c7Wit_solid_center ?_
  · norm_num [c7WitSide]
  · rw [c7Wit_raw_magnitude]
    norm_num
  · rw [c7Wit_preNormal]
    rw [show ((⟨4 / 3, 4 / 3, 0⟩ : Vertex) - ⟨4 / 3, 4 / 3, -3⟩) = ⟨0, 0, 3⟩ by
      rw [Vertex.sub_eval]
      simp only [Vertex.mk.injEq]
      norm_num]
    rw [show ((⟨0, 0, 1⟩ : Vertex)).dot ⟨0, 0, 3⟩ = 3 by
      unfold Vertex.dot
      norm_num]
    rw [abs_of_pos (by norm_num)]
    norm_num

end VMF
